import Mathlib

/-!
# Verification of the input-remapper GUI message broker

A shallow embedding of `src/inputremapper/gui/message_broker.py`.

The Python module defines a synchronous in-process publish/subscribe bus
(`MessageBroker`) together with a closed catalog of message variants.
We embed:

* the `MessageType` enumeration,
* the message variants as one inductive `Message` (the Python code uses a
  `Protocol` with a `message_type` attribute; every concrete variant in the
  module is listed here),
* the broker state (`_listeners`, `_messages`, `_sending`) and its methods
  `send`, `signal`, `_send`, `_send_all`, `subscribe`, `unsubscribe` as a
  fueled interpreter (`MessageBroker.exec`), since listeners are callbacks
  that may re-enter the broker,
* the `UInputsData.__str__` rendering including its regex-based shortening
  of numeric runs, and the `Signal.__str__` / `Signal.__eq__` methods.

Machine-checked instrumentation that does not exist in the Python code but
does not influence any behaviour: every queue entry carries the sequence
number `seq` it received when it was enqueued (recording enqueue order),
and the broker state carries a `trace` of listener invocations and the
`log` of diagnostic lines.  No operation of the embedding branches on
`seq`, `trace`, `nextSeq` or `log`.
-/

set_option maxRecDepth 4000

/-- The `MessageType` enumeration from the source, one constructor per member. -/
inductive MessageType where
  | reset_gui
  | terminate
  | init
  | uinputs
  | groups
  | group
  | preset
  | mapping
  | selected_event
  | combination_recorded
  | recording_started
  | recording_finished
  | combination_update
  | status_msg
  | injector_state
  | gui_focus_request
  | user_confirm_request
  | do_stack_switch
  | test1
  | test2
deriving DecidableEq, Fintype

/-- Python `MessageType.<member>.name`: the name of the enum member. -/
def MessageType.pyName : MessageType → String
  | .reset_gui => "reset_gui"
  | .terminate => "terminate"
  | .init => "init"
  | .uinputs => "uinputs"
  | .groups => "groups"
  | .group => "group"
  | .preset => "preset"
  | .mapping => "mapping"
  | .selected_event => "selected_event"
  | .combination_recorded => "combination_recorded"
  | .recording_started => "recording_started"
  | .recording_finished => "recording_finished"
  | .combination_update => "combination_update"
  | .status_msg => "status_msg"
  | .injector_state => "injector_state"
  | .gui_focus_request => "gui_focus_request"
  | .user_confirm_request => "user_confirm_request"
  | .do_stack_switch => "do_stack_switch"
  | .test1 => "test1"
  | .test2 => "test2"

/-- Python `str(MessageType.<member>)`, which renders as
`MessageType.<member name>` (the default `Enum.__str__`). -/
def MessageType.pyStr (k : MessageType) : String :=
  "MessageType." ++ k.pyName

/-- Source type alias `Name = str`. -/
abbrev DeviceName := String

/-- Source type alias `Key = str`. -/
abbrev GroupKey := String

/-- Source type alias `Capabilities = Dict[int, List]`; the values are lists
of integer capability codes.  Python dicts are modelled as association
lists in insertion order. -/
abbrev Capabilities := List (Int × List Int)

/-- Modelled from the spec: `DeviceType` is imported from
`inputremapper.groups`, which is not part of the shown sources.  The spec
only uses it as an opaque element of the `groups` payload (a device-type
tag per group), so we model it as a wrapped tag name; only its equality
matters here. -/
structure DeviceType where
  tag : String
deriving DecidableEq

/-- Modelled from the spec: `EventCombination` is imported from
`inputremapper.event_combination`, which is not part of the shown sources.
The spec treats it as an opaque payload value (a recorded combination of
input events), so we model it as a wrapped list of event triples; only its
equality matters here. -/
structure EventCombination where
  events : List (Int × Int × Int)
deriving DecidableEq

/-- Identity of a listener callback (`MessageListener = Callable[[Any], None]`).
Python compares callbacks by object identity inside the registry set, so a
listener is represented by an identity token. -/
abbrev ListenerId := Nat

/-- Identity of the `respond` callback carried by `UserConfirmRequest`
(`Callable[[bool], None]`).  Python dataclass equality compares this field
by callback identity, represented here by an identity token. -/
abbrev RespondId := Nat

/-- The message variants of the module, one constructor per class declared in
the source file: the nine frozen dataclasses and the plain class `Signal`.
Field names follow the source.  Python dicts and tuples are modelled as
lists in insertion order. -/
inductive Message where
  | uinputsData (uinputs : List (String × Capabilities))
  | groupsData (groups : List (String × List DeviceType))
  | groupData (group_key : String) (presets : List String)
  | presetData (name : Option String)
      (mappings : Option (List (String × EventCombination))) (autoload : Bool)
  | statusData (ctx_id : Int) (msg : Option String) (tooltip : Option String)
  | combinationRecorded (combination : EventCombination)
  | combinationUpdate (old_combination : EventCombination)
      (new_combination : EventCombination)
  | userConfirmRequest (msg : String) (respond : RespondId)
  | doStackSwitch (page_index : Int)
  | signal (message_type : MessageType)
deriving DecidableEq

/-- The `message_type` attribute of each variant, as written in the source:
a class attribute on each dataclass, and the instance attribute set by
`Signal.__init__`. -/
def Message.message_type : Message → MessageType
  | .uinputsData _ => .uinputs
  | .groupsData _ => .groups
  | .groupData _ _ => .group
  | .presetData _ _ _ => .preset
  | .statusData _ _ _ => .status_msg
  | .combinationRecorded _ => .combination_recorded
  | .combinationUpdate _ _ => .combination_update
  | .userConfirmRequest _ _ => .user_confirm_request
  | .doStackSwitch _ => .do_stack_switch
  | .signal message_type => message_type

/-! ## String rendering

`UInputsData.__str__` builds `f"UInputsData(uinputs={self.uinputs})"` and
then shortens every run matched by the regex `(\d+, )+` to its first
number, an ellipsis and whatever follows the match (the last number of the
run).  We embed the regex scan character by character. -/

/-- Left brace character as a string (Python dict repr delimiter). -/
def lbrace : String := "\x7b"

/-- Right brace character as a string (Python dict repr delimiter). -/
def rbrace : String := "\x7d"

/-- Single-quote character as a string (Python string repr delimiter). -/
def squote : String := "\x27"

/-- The separator `", "` appearing between Python repr elements. -/
def commaSp : String := ", "

/-- Comma-and-space join of rendered elements, as the Python repr of a
list or dict body produces between its elements. -/
def joinComma : List String → String
  | [] => ""
  | [x] => x
  | x :: rest => x ++ commaSp ++ joinComma rest

/-- Number of leading ASCII digit characters, the greedy `\d+`. -/
def leadingDigits : List Char → Nat
  | [] => 0
  | c :: rest => if c.isDigit then leadingDigits rest + 1 else 0

/-- Length of a match of one group `\d+, ` at the head of the input:
one or more digits directly followed by a comma and a space.  (Greedy
`\d+` cannot backtrack usefully here: giving back a digit leaves the next
character a digit, which can never equal the comma the pattern needs, so
the group matches exactly the maximal digit block plus `", "` or fails.) -/
def parseGroupLen (cs : List Char) : Option Nat :=
  let d := leadingDigits cs
  if d = 0 then none
  else
    match cs.drop d with
    | ',' :: ' ' :: _ => some (d + 2)
    | _ => none

/-- Length of a match of `(\d+, )+` at the head of the input: one group,
then greedily as many further groups as possible.  Fueled; each group
consumes at least three characters, so `length + 1` fuel always
suffices. -/
def parseRunLenAux : Nat → List Char → Option Nat
  | 0, _ => none
  | fuel+1, cs =>
    match parseGroupLen cs with
    | none => none
    | some g =>
      match parseRunLenAux fuel (cs.drop g) with
      | none => some g
      | some r => some (g + r)

/-- Length of a match of `(\d+, )+` at the head of the input. -/
def parseRunLen (cs : List Char) : Option Nat :=
  parseRunLenAux (cs.length + 1) cs

/-- `re.finditer("(\d+, )+", string)` as (start, end) index pairs:
leftmost non-overlapping matches, scanning forward one character at a
time and jumping to the match end after each match.  The pattern never
matches the empty string, so no zero-width special cases arise.  Fueled;
every step consumes at least one character, so `length + 1` fuel always
suffices. -/
def finditerAux : Nat → List Char → Nat → List (Nat × Nat)
  | 0, _, _ => []
  | fuel+1, cs, i =>
    match cs with
    | [] => []
    | _ :: rest =>
      match parseRunLen cs with
      | none => finditerAux fuel rest (i + 1)
      | some len => (i, i + len) :: finditerAux fuel (cs.drop len) (i + len)

/-- All matches of `(\d+, )+` in the string, as (start, end) pairs. -/
def reFinditerRuns (s : String) : List (Nat × Nat) :=
  finditerAux (s.length + 1) s.toList 0

/-- The replacement text `"... "` inserted by the shortening loop. -/
def ellipsisSp : String := "... "

/-- One iteration of the shortening loop in `UInputsData.__str__`:
advance `start` past the first number and its `", "` separator
(`start += string[start:].find(",") + 2`), and if anything lies strictly
between the new `start` and the match end, splice in `"... "` in place of
it.  Every reachable match contains a comma, so `List.findIdx` (which
would return the suffix length when no comma exists, where Python `find`
returns -1) agrees with Python on all reachable inputs. -/
def applyShorten (s : List Char) (m : Nat × Nat) : List Char :=
  let start := m.1 + (s.drop m.1).findIdx (fun c => c = ',') + 2
  if start = m.2 then s
  else s.take start ++ ellipsisSp.toList ++ s.drop m.2

/-- The full shortening pass of `UInputsData.__str__`: find all runs of
comma+space separated numbers, then, iterating over the matches in
reverse order (so earlier indices stay valid), shorten each to its first
number, `"... "`, and the text from the match end on. -/
def shortenRuns (s : String) : String :=
  String.mk ((reFinditerRuns s).reverse.foldl applyShorten s.toList)

/-- Python repr of a list of ints, e.g. `[272, 273]`. -/
def pyReprIntList (xs : List Int) : String :=
  "[" ++ joinComma (xs.map toString) ++ "]"

/-- Python repr of a `Capabilities` dict, e.g. `{1: [272, 273]}`. -/
def pyReprCaps (c : Capabilities) : String :=
  lbrace
    ++ joinComma
      (c.map (fun kv => toString kv.1 ++ ": " ++ pyReprIntList kv.2))
    ++ rbrace

/-- Python repr of the `uinputs` dict, e.g. `{'keyboard': {1: [272]}}`. -/
def pyReprUinputs (u : List (String × Capabilities)) : String :=
  lbrace
    ++ joinComma
      (u.map (fun nc => squote ++ nc.1 ++ squote ++ ": " ++ pyReprCaps nc.2))
    ++ rbrace

/-- `UInputsData.__str__`, translated from the source: the f-string
`f"{self.__class__.__name__}(uinputs={self.uinputs})"` followed by the
run-shortening loop. -/
def uinputsDataStr (uinputs : List (String × Capabilities)) : String :=
  shortenRuns ("UInputsData(uinputs=" ++ pyReprUinputs uinputs ++ ")")

/-- `Signal.__str__`: `f"Signal: {self.message_type}"`. -/
def signalStr (k : MessageType) : String :=
  "Signal: " ++ k.pyStr

/-- Python repr of a string value (single-quoted; quoting subtleties for
names containing quote characters are not modelled). -/
def pyReprStr (s : String) : String :=
  squote ++ s ++ squote

/-- Python repr of an `Optional[str]` value. -/
def pyReprOptStr : Option String → String
  | none => "None"
  | some s => pyReprStr s

/-- Python repr of a bool value. -/
def pyBool : Bool → String
  | true => "True"
  | false => "False"

/-- Rendering of the modelled `EventCombination` payload (its exact Python
repr lives outside the shown sources; only used in the debug log). -/
def pyReprComb (c : EventCombination) : String :=
  "EventCombination("
    ++ joinComma
      (c.events.map
        (fun t => toString t.1 ++ "+" ++ toString t.2.1 ++ "+" ++ toString t.2.2))
    ++ ")"

/-- `str(message)` for every variant.  The `uinputsData` and `signal`
branches are translated exactly from the `__str__` methods written in the
source; the other branches model the dataclass-generated repr
`ClassName(field=value, ...)`, which feeds only the debug log (no
property below depends on its exact text). -/
def msgStr : Message → String
  | .uinputsData u => uinputsDataStr u
  | .groupsData g =>
    "GroupsData(groups=" ++ lbrace
      ++ joinComma
        (g.map (fun kv =>
          pyReprStr kv.1 ++ ": [" ++
            joinComma (kv.2.map (fun d => d.tag)) ++ "]"))
      ++ rbrace ++ ")"
  | .groupData key presets =>
    "GroupData(group_key=" ++ pyReprStr key ++ ", presets=("
      ++ joinComma (presets.map pyReprStr) ++ "))"
  | .presetData n m a =>
    "PresetData(name=" ++ pyReprOptStr n ++ ", mappings="
      ++ (match m with
          | none => "None"
          | some ms =>
            "(" ++ joinComma
              (ms.map (fun p =>
                "(" ++ pyReprStr p.1 ++ commaSp ++ pyReprComb p.2 ++ ")"))
              ++ ")")
      ++ ", autoload=" ++ pyBool a ++ ")"
  | .statusData i m t =>
    "StatusData(ctx_id=" ++ toString i ++ ", msg=" ++ pyReprOptStr m
      ++ ", tooltip=" ++ pyReprOptStr t ++ ")"
  | .combinationRecorded c =>
    "CombinationRecorded(combination=" ++ pyReprComb c ++ ")"
  | .combinationUpdate o n =>
    "CombinationUpdate(old_combination=" ++ pyReprComb o
      ++ ", new_combination=" ++ pyReprComb n ++ ")"
  | .userConfirmRequest m r =>
    "UserConfirmRequest(msg=" ++ pyReprStr m ++ ", respond=<function "
      ++ toString r ++ ">)"
  | .doStackSwitch p =>
    "DoStackSwitch(page_index=" ++ toString p ++ ")"
  | .signal k => signalStr k

/-- Python `==` between two messages.  `Signal.__eq__` compares
`str(self) == str(other)` and applies whenever either side is a `Signal`
(for a dataclass on the left, the generated `__eq__` returns
`NotImplemented` against a different class and Python falls back to the
reflected `Signal.__eq__`).  Two payload messages of the same dataclass
compare field by field; two payload messages of different classes are
unequal. -/
def msgEq (m1 m2 : Message) : Bool :=
  match m1, m2 with
  | .signal _, _ => msgStr m1 == msgStr m2
  | _, .signal _ => msgStr m1 == msgStr m2
  | .uinputsData u1, .uinputsData u2 => decide (u1 = u2)
  | .groupsData g1, .groupsData g2 => decide (g1 = g2)
  | .groupData k1 p1, .groupData k2 p2 => decide (k1 = k2) && decide (p1 = p2)
  | .presetData n1 mp1 a1, .presetData n2 mp2 a2 =>
    decide (n1 = n2) && decide (mp1 = mp2) && decide (a1 = a2)
  | .statusData i1 s1 t1, .statusData i2 s2 t2 =>
    decide (i1 = i2) && decide (s1 = s2) && decide (t1 = t2)
  | .combinationRecorded c1, .combinationRecorded c2 => decide (c1 = c2)
  | .combinationUpdate o1 n1, .combinationUpdate o2 n2 =>
    decide (o1 = o2) && decide (n1 = n2)
  | .userConfirmRequest s1 r1, .userConfirmRequest s2 r2 =>
    decide (s1 = s2) && decide (r1 = r2)
  | .doStackSwitch p1, .doStackSwitch p2 => decide (p1 = p2)
  | _, _ => false

/-- Whether a message is an instance of the plain class `Signal` (as
opposed to one of the frozen dataclass variants). -/
def Message.isSignal : Message → Bool
  | .signal _ => true
  | _ => false

/-- The error raised by the `__setattr__` of a frozen dataclass. -/
inductive PyAttrError where
  | frozenInstanceError
deriving DecidableEq

/-- Effect of the Python statement `message.message_type = k` executed
after construction.  The nine payload variants are declared
`@dataclass(frozen=True)`, whose generated `__setattr__` raises
`FrozenInstanceError` on every attribute assignment to an instance;
`Signal` is a plain class (no `frozen` protection), so the assignment
succeeds and overwrites the attribute set by `Signal.__init__`. -/
def setMessageType : Message → MessageType → Except PyAttrError Message
  | .signal _, k => .ok (.signal k)
  | .uinputsData _, _ => .error .frozenInstanceError
  | .groupsData _, _ => .error .frozenInstanceError
  | .groupData _ _, _ => .error .frozenInstanceError
  | .presetData _ _ _, _ => .error .frozenInstanceError
  | .statusData _ _ _, _ => .error .frozenInstanceError
  | .combinationRecorded _, _ => .error .frozenInstanceError
  | .combinationUpdate _ _, _ => .error .frozenInstanceError
  | .userConfirmRequest _ _, _ => .error .frozenInstanceError
  | .doStackSwitch _, _ => .error .frozenInstanceError

/-! ## The broker

`MessageBroker` holds the registry `_listeners` (a `defaultdict(set)` of
callbacks per kind, modelled as a total function to duplicate-free lists
in insertion order), the deque `_messages`, and the reentrancy flag
`_sending`.  Listeners are arbitrary callbacks; a listener body is
modelled as the list of broker calls it performs when invoked
(`LAct`), supplied by an environment mapping listener identity and
received message to that list.  Because listeners re-enter the broker,
the methods are interpreted by one fueled function `MessageBroker.exec`;
running out of fuel is reported as a distinguished outcome and never
identified with normal termination. -/

/-- One entry of the `_messages` deque: `(data, file, line)` in the source,
with the origin file and line captured by `get_caller` (pure stack
diagnostics, passed as explicit arguments here) — plus the proof-only
field `seq` recording the position in enqueue order, which no operation
branches on. -/
structure QueueEntry where
  data : Message
  seq : Nat
  file : String
  line : Nat
deriving DecidableEq

/-- Proof-only record of one listener invocation: which listener was
called, with which message, and the enqueue sequence number of the queue
entry being dispatched. -/
structure Invocation where
  listener : ListenerId
  seq : Nat
  data : Message
deriving DecidableEq

/-- The broker state.  `listeners`, `messages` and `sending` are the three
attributes set by `MessageBroker.__init__`; `nextSeq`, `trace` and `log`
are instrumentation (enqueue counter, invocation record, debug log). -/
structure MessageBroker where
  listeners : MessageType → List ListenerId
  messages : List QueueEntry
  sending : Bool
  nextSeq : Nat
  trace : List Invocation
  log : List String

/-- `MessageBroker.__init__`: empty registry, empty deque, flag down. -/
def MessageBroker.initial : MessageBroker :=
  { listeners := fun _ => []
    messages := []
    sending := false
    nextSeq := 0
    trace := []
    log := [] }

/-- `set.add` on the registry entry for one kind: a no-op when the element
is already present, otherwise appended (insertion order stands in for the
deterministic-per-run iteration order of a Python set). -/
def setAdd (xs : List ListenerId) (x : ListenerId) : List ListenerId :=
  if x ∈ xs then xs else xs ++ [x]

/-- `set.remove` wrapped in `try/except KeyError: pass`: drop the element
if present, silently do nothing otherwise. -/
def setDiscard (xs : List ListenerId) (x : ListenerId) : List ListenerId :=
  xs.filter (fun y => y ≠ x)

/-- `MessageBroker.subscribe(massage_type, listener)` (sic): log, then add
the listener to the set for that kind.  The Python method returns `self`
for chaining; state passing models that.  Accessing a missing key of the
`defaultdict(set)` creates an empty set, which the total-function registry
models directly. -/
def MessageBroker.subscribe (s : MessageBroker) (massage_type : MessageType)
    (listener : ListenerId) : MessageBroker :=
  { s with
    listeners := fun k =>
      if k = massage_type then setAdd (s.listeners k) listener
      else s.listeners k
    log := s.log ++ ["adding new Listener: " ++ toString listener] }

/-- `MessageBroker.unsubscribe(listener)`: remove the listener from the set
of every kind, ignoring absence.  (The source iterates over
`self._listeners.values()`; removing from the kinds not present in the
dict is a no-op, so the total-function registry gives the same result.) -/
def MessageBroker.unsubscribe (s : MessageBroker)
    (listener : ListenerId) : MessageBroker :=
  { s with listeners := fun k => setDiscard (s.listeners k) listener }

/-- One call a listener body can make on the broker while being invoked
(plus raising an exception).  `sendAct` carries the origin-diagnostic
arguments of the modelled `get_caller`. -/
inductive LAct where
  | subscribeAct (massage_type : MessageType) (listener : ListenerId)
  | unsubscribeAct (listener : ListenerId)
  | sendAct (data : Message) (file : String) (line : Nat)
  | raiseAct
deriving DecidableEq

/-- The behaviour of the listener callbacks: what the listener with a given
identity does when invoked with a given message. -/
abbrev Env := ListenerId → Message → List LAct

/-- Exceptions propagating out of broker calls: an exception raised inside
a listener, or exhaustion of interpreter fuel (never raised by the
Python code; kept distinct so that no theorem can mistake a truncated run
for a completed one). -/
inductive PyExc where
  | listenerExc
  | outOfFuel
deriving DecidableEq

/-- The debug line of `MessageBroker._send`:
`f"from {file}:{line}: Signal={data.message_type.name}: {data}"`. -/
def logLine (e : QueueEntry) : String :=
  "from " ++ e.file ++ ":" ++ toString e.line ++ ": Signal="
    ++ e.data.message_type.pyName ++ ": " ++ msgStr e.data

/-- The broker calls interpreted by `MessageBroker.exec`.  `send` is the
public `MessageBroker.send`; `sendAll` is `_send_all`; `drain` is the
`while self._messages:` loop inside `_send_all` (entered with the flag
already up); `sendOne` is `_send` applied to one popped entry; `invoke`
is the `for listener in ...copy():` loop of `_send` over the remaining
snapshot; `runActs` is the body of one listener invocation. -/
inductive Call where
  | send (data : Message) (file : String) (line : Nat)
  | sendAll
  | drain
  | sendOne (entry : QueueEntry)
  | invoke (entry : QueueEntry) (snapshot : List ListenerId)
  | runActs (acts : List LAct)
deriving DecidableEq

/-- The interpreter for the broker methods.  Fuel decreases on every
internal call; `fuel = 0` aborts with `outOfFuel`.  Each arm is the direct
transcription of the corresponding piece of the source:

* `send`: `self._messages.append((data, *self.get_caller()))` then
  `self._send_all()`;
* `sendAll` (`_send_all`): return at once if `self._sending` (never run
  the drain twice), otherwise raise the flag, run the drain, and lower
  the flag again in a `finally:` whether or not the drain raised;
* `drain`: `while self._messages: self._send(*self._messages.popleft())`,
  re-checking the queue after each pop;
* `sendOne` (`_send`): emit the debug line, then iterate over
  `self._listeners[data.message_type].copy()` — the snapshot is read
  here, once, at dispatch time;
* `invoke`: call each listener of the snapshot in order, stopping only if
  an exception propagates;
* `runActs`: perform the broker calls of one listener body in order; a
  raise aborts the rest of the body and propagates. -/
def MessageBroker.exec : Nat → Env → MessageBroker → Call →
    MessageBroker × Option PyExc
  | 0, _, s, _ => (s, some .outOfFuel)
  | fuel+1, env, s, .send data file line =>
    MessageBroker.exec fuel env
      { s with
        messages := s.messages ++ [⟨data, s.nextSeq, file, line⟩]
        nextSeq := s.nextSeq + 1 }
      .sendAll
  | fuel+1, env, s, .sendAll =>
    if s.sending then (s, none)
    else
      let r := MessageBroker.exec fuel env { s with sending := true } .drain
      ({ r.1 with sending := false }, r.2)
  | fuel+1, env, s, .drain =>
    match s.messages with
    | [] => (s, none)
    | entry :: rest =>
      let r := MessageBroker.exec fuel env { s with messages := rest }
        (.sendOne entry)
      match r.2 with
      | some e => (r.1, some e)
      | none => MessageBroker.exec fuel env r.1 .drain
  | fuel+1, env, s, .sendOne entry =>
    MessageBroker.exec fuel env { s with log := s.log ++ [logLine entry] }
      (.invoke entry (s.listeners entry.data.message_type))
  | _+1, _, s, .invoke _ [] => (s, none)
  | fuel+1, env, s, .invoke entry (l :: ls) =>
    let r := MessageBroker.exec fuel env
      { s with trace := s.trace ++ [⟨l, entry.seq, entry.data⟩] }
      (.runActs (env l entry.data))
    match r.2 with
    | some e => (r.1, some e)
    | none => MessageBroker.exec fuel env r.1 (.invoke entry ls)
  | _+1, _, s, .runActs [] => (s, none)
  | fuel+1, env, s, .runActs (a :: rest) =>
    match a with
    | .subscribeAct k l =>
      MessageBroker.exec fuel env (s.subscribe k l) (.runActs rest)
    | .unsubscribeAct l =>
      MessageBroker.exec fuel env (s.unsubscribe l) (.runActs rest)
    | .sendAct data file line =>
      let r := MessageBroker.exec fuel env s (.send data file line)
      match r.2 with
      | some e => (r.1, some e)
      | none => MessageBroker.exec fuel env r.1 (.runActs rest)
    | .raiseAct => (s, some .listenerExc)

/-- `MessageBroker.send(data)`: the public entry point. -/
def MessageBroker.send (fuel : Nat) (env : Env) (s : MessageBroker)
    (data : Message) (file : String) (line : Nat) :
    MessageBroker × Option PyExc :=
  MessageBroker.exec fuel env s (.send data file line)

/-- `MessageBroker.signal(signal)`: `self.send(Signal(signal))`. -/
def MessageBroker.signal (fuel : Nat) (env : Env) (s : MessageBroker)
    (k : MessageType) (file : String) (line : Nat) :
    MessageBroker × Option PyExc :=
  MessageBroker.send fuel env s (.signal k) file line

/-- The broker calls a listener body may reach while a drain is in
progress: the public `send`, the guarded `_send_all`, and further listener
body steps.  (The drain, dispatch and fan-out calls are only issued by
`_send_all` itself.) -/
def Quiet : Call → Prop
  | .send _ _ _ => True
  | .sendAll => True
  | .runActs _ => True
  | _ => False

/-- Side condition for `exec_no_raise` on the one call shape that carries a
literal listener body: the body must not raise.  (At every reachable call
site the body comes from the environment.) -/
def RaiseFree : Call → Prop
  | .runActs acts => LAct.raiseAct ∉ acts
  | _ => True

/-- Side condition for `exec_no_ghost` on the two call shapes that carry
literal listener data: the snapshot being fanned out must not contain the
removed listener, and a listener body must not re-subscribe it.  (At
every reachable call site these come from the registry and from the
environment.) -/
def GhostFree (l : ListenerId) : Call → Prop
  | .invoke _ ls => l ∉ ls
  | .runActs acts => ∀ k, LAct.subscribeAct k l ∉ acts
  | _ => True

/-! ## The FIFO invariant

Each queue entry carries the sequence number it received on enqueue
(`nextSeq` counts sends).  The invariant: pending entries sit in the queue
in strictly increasing enqueue order, the recorded invocations are in
non-decreasing enqueue order, and every pending entry is strictly newer
than every entry already dispatched — together: messages are dispatched
in exactly the order they were enqueued. -/

/-- Sequence numbers of the pending queue entries, oldest first. -/
def qSeqs (s : MessageBroker) : List Nat :=
  s.messages.map QueueEntry.seq

/-- Sequence numbers of the dispatched-entry invocations, in invocation
order. -/
def tSeqs (s : MessageBroker) : List Nat :=
  s.trace.map Invocation.seq

/-- The FIFO invariant on a broker state. -/
def SeqInv (s : MessageBroker) : Prop :=
  (qSeqs s).Pairwise (· < ·) ∧
  (∀ q ∈ qSeqs s, q < s.nextSeq) ∧
  (tSeqs s).Pairwise (· ≤ ·) ∧
  (∀ t ∈ tSeqs s, ∀ q ∈ qSeqs s, t < q) ∧
  (∀ t ∈ tSeqs s, t < s.nextSeq)

/-- The dispatch-time condition on the entry currently being fanned out:
no recorded invocation is newer than it, every pending entry is strictly
newer than it, and its sequence number has been allocated. -/
def EntryOk (e : QueueEntry) (s : MessageBroker) : Prop :=
  (∀ t ∈ tSeqs s, t ≤ e.seq) ∧ (∀ q ∈ qSeqs s, e.seq < q) ∧ e.seq < s.nextSeq

/-- Precondition of each call shape, as established at its call sites:
the drain, dispatch, fan-out and listener-body calls only run with the
flag up, and dispatch runs only on an entry just popped from the head of
the queue. -/
def CallPre : Call → MessageBroker → Prop
  | .send _ _ _, _ => True
  | .sendAll, _ => True
  | .drain, s => s.sending = true
  | .sendOne e, s => s.sending = true ∧ EntryOk e s
  | .invoke e _, s => s.sending = true ∧ EntryOk e s
  | .runActs _, s => s.sending = true

/-! ## Concrete scenarios

Closed broker states and listener environments used to witness the
theorems below on executable inputs. -/

/-- Origin-file stand-in for the `get_caller` diagnostics in scenarios. -/
def srcFile : String := "controller.py"

/-- Environment in which no listener body does anything. -/
def envNil : Env := fun _ _ => []

/-- FIFO scenario: listener 1 reacts to a `test1` message by sending a
`test2` message from inside its own invocation; everyone else does
nothing. -/
def fifoEnv : Env := fun l data =>
  if l = 1 ∧ data.message_type = MessageType.test1 then
    [LAct.sendAct (Message.signal MessageType.test2) srcFile 10]
  else []

/-- Idle broker with listeners 1 and 2 on `test1` and listener 3 on
`test2`. -/
def fifoState : MessageBroker :=
  { listeners := fun k =>
      if k = MessageType.test1 then [1, 2]
      else if k = MessageType.test2 then [3]
      else []
    messages := []
    sending := false
    nextSeq := 0
    trace := []
    log := [] }

/-- A broker observed in mid-drain: the flag is up and one entry is
pending. -/
def busyState : MessageBroker :=
  { listeners := fun _ => []
    messages := [⟨Message.signal MessageType.test1, 0, srcFile, 4⟩]
    sending := true
    nextSeq := 1
    trace := []
    log := [] }

/-- An idle broker with two entries already pending. -/
def pendingState : MessageBroker :=
  { listeners := fun k =>
      if k = MessageType.test1 then [1, 2]
      else if k = MessageType.test2 then [3]
      else []
    messages := [⟨Message.signal MessageType.test1, 0, srcFile, 4⟩,
                 ⟨Message.signal MessageType.test2, 1, srcFile, 5⟩]
    sending := false
    nextSeq := 2
    trace := []
    log := [] }

/-- Snapshot scenario: listener 1 reacts to a `test1` message by
unsubscribing itself, unsubscribing listener 2, and subscribing a new
listener 4 to `test1`. -/
def snapEnv : Env := fun l data =>
  if l = 1 ∧ data.message_type = MessageType.test1 then
    [LAct.unsubscribeAct 1, LAct.unsubscribeAct 2,
     LAct.subscribeAct MessageType.test1 4]
  else []

/-- Mid-drain broker with listeners 1 and 2 on `test1`, about to dispatch
one popped entry. -/
def snapState : MessageBroker :=
  { listeners := fun k => if k = MessageType.test1 then [1, 2] else []
    messages := []
    sending := true
    nextSeq := 1
    trace := []
    log := [] }

/-- The popped entry dispatched in the snapshot scenario. -/
def snapEntry : QueueEntry :=
  ⟨Message.signal MessageType.test1, 0, srcFile, 3⟩

/-- Exception scenario: on a `test1` message, listener 1 first sends a
`test2` message (which is enqueued behind the one being dispatched) and
then raises. -/
def c4Env : Env := fun l data =>
  if l = 1 ∧ data.message_type = MessageType.test1 then
    [LAct.sendAct (Message.signal MessageType.test2) srcFile 11, LAct.raiseAct]
  else []

/-- Exception scenario: on a `test1` message, listener 1 raises at once. -/
def raiseEnv : Env := fun l data =>
  if l = 1 ∧ data.message_type = MessageType.test1 then [LAct.raiseAct]
  else []

/-- Idle broker with listeners 1 and 2 on `test1` and listener 3 on
`test2`, used in the exception scenarios. -/
def raiseState : MessageBroker :=
  { listeners := fun k =>
      if k = MessageType.test1 then [1, 2]
      else if k = MessageType.test2 then [3]
      else []
    messages := []
    sending := false
    nextSeq := 0
    trace := []
    log := [] }

/-- Mid-drain broker with listeners 1 and 2 on `test1`, used in the
double-subscription scenario. -/
def c5State : MessageBroker :=
  { listeners := fun k => if k = MessageType.test1 then [1, 2] else []
    messages := []
    sending := true
    nextSeq := 1
    trace := []
    log := [] }

/-! ## Run-shortening: analysis devices

Specification-side devices used to state and prove what the
`UInputsData.__str__` shortening pass does to a run of numbers. -/

/-- One or more digit blocks each followed by `", "`: the character-level
shape of the text matched by `(\\d+, )+` (the last number of a run, not
being followed by a comma, stays outside the match). -/
def groupChars : List (List Char) → List Char
  | [] => []
  | d :: rest => d ++ ',' :: ' ' :: groupChars rest

/-- A nonempty block of ASCII digit characters. -/
def AllDigits (d : List Char) : Prop :=
  d ≠ [] ∧ ∀ c ∈ d, c.isDigit = true

instance (d : List Char) : Decidable (AllDigits d) := by
  unfold AllDigits
  infer_instance

/-- Decidable check that no match of `(\\d+, )+` can start at this suffix,
whatever text follows it: either the first character is not a digit, or
its leading digit block is terminated inside the suffix by a character
that cannot begin the `", "` a group needs. -/
def inertSuffix : List Char → Bool
  | [] => true
  | c :: rest =>
    if c.isDigit then
      match (c :: rest).drop (leadingDigits (c :: rest)) with
      | [] => false
      | ',' :: _ => false
      | _ :: _ => true
    else true

/-- The concrete rendering context to the left of the capability run in a
one-device, one-capability `UInputsData` message named `keyboard` with
capability key 1. -/
def runPre : String :=
  "UInputsData(uinputs=" ++ lbrace ++ squote ++ "keyboard" ++ squote
    ++ ": " ++ lbrace ++ "1: ["

/-- The concrete rendering context to the right of the capability run. -/
def runSuf : String :=
  "]" ++ rbrace ++ rbrace ++ ")"

/-! ## Unfolding equations for the interpreter -/

theorem MessageBroker.exec_zero (env : Env) (s : MessageBroker) (c : Call) :
    MessageBroker.exec 0 env s c = (s, some .outOfFuel) := rfl

theorem MessageBroker.exec_send (fuel : Nat) (env : Env) (s : MessageBroker)
    (data : Message) (file : String) (line : Nat) :
    MessageBroker.exec (fuel + 1) env s (.send data file line) =
      MessageBroker.exec fuel env
        { s with
          messages := s.messages ++ [⟨data, s.nextSeq, file, line⟩]
          nextSeq := s.nextSeq + 1 }
        .sendAll := rfl

theorem MessageBroker.exec_sendAll (fuel : Nat) (env : Env) (s : MessageBroker) :
    MessageBroker.exec (fuel + 1) env s .sendAll =
      if s.sending then (s, none)
      else
        let r := MessageBroker.exec fuel env { s with sending := true } .drain
        ({ r.1 with sending := false }, r.2) := rfl

theorem MessageBroker.exec_drain (fuel : Nat) (env : Env) (s : MessageBroker) :
    MessageBroker.exec (fuel + 1) env s .drain =
      match s.messages with
      | [] => (s, none)
      | entry :: rest =>
        let r := MessageBroker.exec fuel env { s with messages := rest }
          (.sendOne entry)
        match r.2 with
        | some e => (r.1, some e)
        | none => MessageBroker.exec fuel env r.1 .drain := rfl

theorem MessageBroker.exec_sendOne (fuel : Nat) (env : Env) (s : MessageBroker)
    (entry : QueueEntry) :
    MessageBroker.exec (fuel + 1) env s (.sendOne entry) =
      MessageBroker.exec fuel env { s with log := s.log ++ [logLine entry] }
        (.invoke entry (s.listeners entry.data.message_type)) := rfl

theorem MessageBroker.exec_invoke_nil (fuel : Nat) (env : Env)
    (s : MessageBroker) (entry : QueueEntry) :
    MessageBroker.exec (fuel + 1) env s (.invoke entry []) = (s, none) := rfl

theorem MessageBroker.exec_invoke_cons (fuel : Nat) (env : Env)
    (s : MessageBroker) (entry : QueueEntry) (l : ListenerId)
    (ls : List ListenerId) :
    MessageBroker.exec (fuel + 1) env s (.invoke entry (l :: ls)) =
      (let r := MessageBroker.exec fuel env
        { s with trace := s.trace ++ [⟨l, entry.seq, entry.data⟩] }
        (.runActs (env l entry.data))
      match r.2 with
      | some e => (r.1, some e)
      | none => MessageBroker.exec fuel env r.1 (.invoke entry ls)) := rfl

theorem MessageBroker.exec_runActs_nil (fuel : Nat) (env : Env)
    (s : MessageBroker) :
    MessageBroker.exec (fuel + 1) env s (.runActs []) = (s, none) := rfl

theorem MessageBroker.exec_runActs_sub (fuel : Nat) (env : Env)
    (s : MessageBroker) (k : MessageType) (l : ListenerId) (rest : List LAct) :
    MessageBroker.exec (fuel + 1) env s (.runActs (.subscribeAct k l :: rest)) =
      MessageBroker.exec fuel env (s.subscribe k l) (.runActs rest) := rfl

theorem MessageBroker.exec_runActs_unsub (fuel : Nat) (env : Env)
    (s : MessageBroker) (l : ListenerId) (rest : List LAct) :
    MessageBroker.exec (fuel + 1) env s (.runActs (.unsubscribeAct l :: rest)) =
      MessageBroker.exec fuel env (s.unsubscribe l) (.runActs rest) := rfl

theorem MessageBroker.exec_runActs_send (fuel : Nat) (env : Env)
    (s : MessageBroker) (data : Message) (file : String) (line : Nat)
    (rest : List LAct) :
    MessageBroker.exec (fuel + 1) env s
        (.runActs (.sendAct data file line :: rest)) =
      (let r := MessageBroker.exec fuel env s (.send data file line)
      match r.2 with
      | some e => (r.1, some e)
      | none => MessageBroker.exec fuel env r.1 (.runActs rest)) := rfl

theorem MessageBroker.exec_runActs_raise (fuel : Nat) (env : Env)
    (s : MessageBroker) (rest : List LAct) :
    MessageBroker.exec (fuel + 1) env s (.runActs (.raiseAct :: rest)) =
      (s, some .listenerExc) := rfl

/-! ## Basic preservation lemmas -/

/-- No broker call changes the value the reentrancy flag has when the call
returns to its caller: `_send_all` lowers in its `finally:` exactly the
flag it raised, and nothing else writes the flag. -/
theorem MessageBroker.exec_sending (env : Env) : ∀ (fuel : Nat)
    (s : MessageBroker) (c : Call),
    (MessageBroker.exec fuel env s c).1.sending = s.sending := by
  intro fuel
  induction fuel with
  | zero => intro s c; rfl
  | succ f ih =>
    intro s c
    cases c with
    | send data file line =>
      rw [MessageBroker.exec_send]
      simpa using ih _ .sendAll
    | sendAll =>
      rw [MessageBroker.exec_sendAll]
      by_cases h : s.sending <;> simp [h]
    | drain =>
      rw [MessageBroker.exec_drain]
      cases hm : s.messages with
      | nil => simp
      | cons entry rest =>
        simp only []
        cases hr : (MessageBroker.exec f env { s with messages := rest }
            (.sendOne entry)).2 with
        | some e =>
          simp only [hr]
          simpa using ih { s with messages := rest } (.sendOne entry)
        | none =>
          simp only [hr]
          rw [ih _ .drain]
          simpa using ih { s with messages := rest } (.sendOne entry)
    | sendOne entry =>
      rw [MessageBroker.exec_sendOne]
      simpa using ih _ (.invoke entry (s.listeners entry.data.message_type))
    | invoke entry ls =>
      cases ls with
      | nil => rw [MessageBroker.exec_invoke_nil]
      | cons l ls =>
        rw [MessageBroker.exec_invoke_cons]
        simp only []
        cases hr : (MessageBroker.exec f env
            { s with trace := s.trace ++ [⟨l, entry.seq, entry.data⟩] }
            (.runActs (env l entry.data))).2 with
        | some e =>
          simp only [hr]
          simpa using ih _ (.runActs (env l entry.data))
        | none =>
          simp only [hr]
          rw [ih _ (.invoke entry ls)]
          simpa using ih _ (.runActs (env l entry.data))
    | runActs acts =>
      cases acts with
      | nil => rw [MessageBroker.exec_runActs_nil]
      | cons a rest =>
        cases a with
        | subscribeAct k l =>
          rw [MessageBroker.exec_runActs_sub]
          simpa [MessageBroker.subscribe] using ih _ (.runActs rest)
        | unsubscribeAct l =>
          rw [MessageBroker.exec_runActs_unsub]
          simpa [MessageBroker.unsubscribe] using ih _ (.runActs rest)
        | sendAct data file line =>
          rw [MessageBroker.exec_runActs_send]
          simp only []
          cases hr : (MessageBroker.exec f env s (.send data file line)).2 with
          | some e =>
            simp only [hr]
            simpa using ih _ (.send data file line)
          | none =>
            simp only [hr]
            rw [ih _ (.runActs rest)]
            simpa using ih _ (.send data file line)
        | raiseAct => rw [MessageBroker.exec_runActs_raise]

/-- While the reentrancy flag is up, a `send`, a `_send_all` or a listener
body never dispatches anything: `_send_all` returns at once, so the
invocation trace is untouched.  This is the mechanism that flattens
nested sends into the ongoing drain instead of processing them
depth-first. -/
theorem MessageBroker.exec_quiet (env : Env) : ∀ (fuel : Nat)
    (s : MessageBroker) (c : Call), s.sending = true → Quiet c →
    (MessageBroker.exec fuel env s c).1.trace = s.trace := by
  intro fuel
  induction fuel with
  | zero => intro s c _ _; rfl
  | succ f ih =>
    intro s c hs hq
    cases c with
    | send data file line =>
      rw [MessageBroker.exec_send]
      simpa using ih _ .sendAll (by simpa using hs) trivial
    | sendAll =>
      rw [MessageBroker.exec_sendAll]
      simp [hs]
    | drain => exact absurd hq (by simp [Quiet])
    | sendOne entry => exact absurd hq (by simp [Quiet])
    | invoke entry ls => exact absurd hq (by simp [Quiet])
    | runActs acts =>
      cases acts with
      | nil => rw [MessageBroker.exec_runActs_nil]
      | cons a rest =>
        cases a with
        | subscribeAct k l =>
          rw [MessageBroker.exec_runActs_sub]
          have := ih (s.subscribe k l) (.runActs rest)
            (by simpa [MessageBroker.subscribe] using hs) trivial
          simpa [MessageBroker.subscribe] using this
        | unsubscribeAct l =>
          rw [MessageBroker.exec_runActs_unsub]
          have := ih (s.unsubscribe l) (.runActs rest)
            (by simpa [MessageBroker.unsubscribe] using hs) trivial
          simpa [MessageBroker.unsubscribe] using this
        | sendAct data file line =>
          rw [MessageBroker.exec_runActs_send]
          simp only []
          have h1 := ih s (.send data file line) hs trivial
          have hsend : (MessageBroker.exec f env s (.send data file line)).1.sending
              = true := by rw [MessageBroker.exec_sending]; exact hs
          cases hr : (MessageBroker.exec f env s (.send data file line)).2 with
          | some e => simpa [hr] using h1
          | none =>
            simp only [hr]
            rw [ih _ (.runActs rest) hsend trivial, h1]
        | raiseAct => rw [MessageBroker.exec_runActs_raise]

/-- If the fan-out over a snapshot returns without an exception, it has
invoked exactly the listeners of the snapshot, in order, each exactly once
with the dispatched entry — regardless of any subscribing, unsubscribing
or sending the invoked listener bodies perform, because those reach the
broker only while the flag is up. -/
theorem MessageBroker.invoke_trace (env : Env) : ∀ (fuel : Nat)
    (s : MessageBroker) (entry : QueueEntry) (ls : List ListenerId),
    s.sending = true →
    (MessageBroker.exec fuel env s (.invoke entry ls)).2 = none →
    (MessageBroker.exec fuel env s (.invoke entry ls)).1.trace =
      s.trace ++ ls.map (fun l => ⟨l, entry.seq, entry.data⟩) := by
  intro fuel
  induction fuel with
  | zero =>
    intro s entry ls _ hnone
    rw [MessageBroker.exec_zero] at hnone
    exact absurd hnone (by simp)
  | succ f ih =>
    intro s entry ls hs hnone
    cases ls with
    | nil => rw [MessageBroker.exec_invoke_nil]; simp
    | cons l ls =>
      rw [MessageBroker.exec_invoke_cons] at hnone ⊢
      simp only [] at hnone ⊢
      cases hr : (MessageBroker.exec f env
          { s with trace := s.trace ++ [⟨l, entry.seq, entry.data⟩] }
          (.runActs (env l entry.data))).2 with
      | some e => simp [hr] at hnone
      | none =>
        simp only [hr] at hnone ⊢
        have htr := MessageBroker.exec_quiet env f
          { s with trace := s.trace ++ [⟨l, entry.seq, entry.data⟩] }
          (.runActs (env l entry.data)) (by simpa using hs) trivial
        have hsend := MessageBroker.exec_sending env f
          { s with trace := s.trace ++ [⟨l, entry.seq, entry.data⟩] }
          (.runActs (env l entry.data))
        rw [ih _ entry ls (by rw [hsend]; simpa using hs) hnone, htr]
        simp

/-- A drain loop that terminates normally leaves the queue empty: the loop
re-checks `self._messages` after every pop and only exits the `while` when
nothing is pending — so every entry enqueued while the drain ran,
including entries appended by listeners, has been dispatched before the
drain finished. -/
theorem MessageBroker.drain_empty (env : Env) : ∀ (fuel : Nat)
    (s s' : MessageBroker),
    MessageBroker.exec fuel env s .drain = (s', none) → s'.messages = [] := by
  intro fuel
  induction fuel with
  | zero =>
    intro s s' h
    rw [MessageBroker.exec_zero] at h
    simp at h
  | succ f ih =>
    intro s s' h
    rw [MessageBroker.exec_drain] at h
    cases hm : s.messages with
    | nil =>
      rw [hm] at h
      simp only [] at h
      cases h
      exact hm
    | cons entry rest =>
      rw [hm] at h
      simp only [] at h
      cases hr : (MessageBroker.exec f env { s with messages := rest }
          (.sendOne entry)).2 with
      | some e =>
        rw [hr] at h
        simp at h
      | none =>
        rw [hr] at h
        exact ih _ _ h

/-- `_send_all` entered with the flag down and returning normally leaves
the queue empty. -/
theorem MessageBroker.sendAll_empty (env : Env) : ∀ (fuel : Nat)
    (s s' : MessageBroker), s.sending = false →
    MessageBroker.exec fuel env s .sendAll = (s', none) → s'.messages = [] := by
  intro fuel
  cases fuel with
  | zero =>
    intro s s' _ h
    rw [MessageBroker.exec_zero] at h
    simp at h
  | succ f =>
    intro s s' hs h
    rw [MessageBroker.exec_sendAll] at h
    rw [hs] at h
    simp only [Bool.false_eq_true, if_false] at h
    cases hd : MessageBroker.exec f env { s with sending := true } .drain with
    | mk s1 e1 =>
      rw [hd] at h
      simp at h
      obtain ⟨h1, h2⟩ := h
      have := MessageBroker.drain_empty env f _ _ (by rw [hd, h2])
      rw [← h1]
      simpa using this

/-- A `send` issued with no drain in progress that returns normally leaves
the queue empty. -/
theorem MessageBroker.send_empty (env : Env) : ∀ (fuel : Nat)
    (s s' : MessageBroker) (data : Message) (file : String) (line : Nat),
    s.sending = false →
    MessageBroker.send fuel env s data file line = (s', none) →
    s'.messages = [] := by
  intro fuel
  cases fuel with
  | zero =>
    intro s s' data file line _ h
    rw [MessageBroker.send, MessageBroker.exec_zero] at h
    simp at h
  | succ f =>
    intro s s' data file line hs h
    rw [MessageBroker.send, MessageBroker.exec_send] at h
    exact MessageBroker.sendAll_empty env f _ _ (by simpa using hs) h

/-- If no listener body raises, no broker call raises a listener
exception: the broker machinery itself never fails on any message (the
only other non-normal outcome is fuel exhaustion of the embedding). -/
theorem MessageBroker.exec_no_raise (env : Env)
    (henv : ∀ l m, LAct.raiseAct ∉ env l m) : ∀ (fuel : Nat)
    (s : MessageBroker) (c : Call), RaiseFree c →
    (MessageBroker.exec fuel env s c).2 ≠ some .listenerExc := by
  intro fuel
  induction fuel with
  | zero => intro s c _; rw [MessageBroker.exec_zero]; simp
  | succ f ih =>
    intro s c hc
    cases c with
    | send data file line =>
      rw [MessageBroker.exec_send]
      exact ih _ .sendAll trivial
    | sendAll =>
      rw [MessageBroker.exec_sendAll]
      by_cases h : s.sending
      · simp [h]
      · simp only [h, if_false]
        exact ih _ .drain trivial
    | drain =>
      rw [MessageBroker.exec_drain]
      cases hm : s.messages with
      | nil => simp
      | cons entry rest =>
        simp only []
        cases hr : (MessageBroker.exec f env { s with messages := rest }
            (.sendOne entry)).2 with
        | some e =>
          simp only [hr]
          intro hcontr
          simp at hcontr
          exact ih _ (.sendOne entry) trivial (by rw [hr, hcontr])
        | none =>
          simp only [hr]
          exact ih _ .drain trivial
    | sendOne entry =>
      rw [MessageBroker.exec_sendOne]
      exact ih _ (.invoke entry (s.listeners entry.data.message_type)) trivial
    | invoke entry ls =>
      cases ls with
      | nil => rw [MessageBroker.exec_invoke_nil]; simp
      | cons l ls =>
        rw [MessageBroker.exec_invoke_cons]
        simp only []
        cases hr : (MessageBroker.exec f env
            { s with trace := s.trace ++ [⟨l, entry.seq, entry.data⟩] }
            (.runActs (env l entry.data))).2 with
        | some e =>
          simp only [hr]
          intro hcontr
          simp at hcontr
          exact ih _ (.runActs (env l entry.data)) (henv l entry.data)
            (by rw [hr, hcontr])
        | none =>
          simp only [hr]
          exact ih _ (.invoke entry ls) hc
    | runActs acts =>
      cases acts with
      | nil => rw [MessageBroker.exec_runActs_nil]; simp
      | cons a rest =>
        have hrest : LAct.raiseAct ∉ rest := fun hm => hc (List.mem_cons_of_mem _ hm)
        cases a with
        | subscribeAct k l =>
          rw [MessageBroker.exec_runActs_sub]
          exact ih _ (.runActs rest) hrest
        | unsubscribeAct l =>
          rw [MessageBroker.exec_runActs_unsub]
          exact ih _ (.runActs rest) hrest
        | sendAct data file line =>
          rw [MessageBroker.exec_runActs_send]
          simp only []
          cases hr : (MessageBroker.exec f env s (.send data file line)).2 with
          | some e =>
            simp only [hr]
            intro hcontr
            simp at hcontr
            exact ih _ (.send data file line) trivial (by rw [hr, hcontr])
          | none =>
            simp only [hr]
            exact ih _ (.runActs rest) hrest
        | raiseAct => exact absurd (List.mem_cons_self _ _) hc

/-- Adding one listener to a registry set never makes a different listener
appear in it. -/
theorem setAdd_not_mem {xs : List ListenerId} {x y : ListenerId}
    (hx : x ∉ xs) (hne : y ≠ x) : x ∉ setAdd xs y := by
  unfold setAdd
  by_cases hmem : y ∈ xs
  · simpa [hmem] using hx
  · simp only [hmem, if_false]
    intro h
    rcases List.mem_append.mp h with h | h
    · exact hx h
    · simp at h
      exact hne h.symm

/-- A listener registered under no kind is never invoked by any broker
call, provided no listener body re-subscribes it: its absence from the
registry is preserved, and every invocation added to the trace names a
different listener. -/
theorem MessageBroker.exec_no_ghost (env : Env) (l : ListenerId)
    (henv : ∀ l' m k, LAct.subscribeAct k l ∉ env l' m) : ∀ (fuel : Nat)
    (s : MessageBroker) (c : Call), (∀ k, l ∉ s.listeners k) → GhostFree l c →
    (∀ k, l ∉ (MessageBroker.exec fuel env s c).1.listeners k) ∧
    (∀ inv ∈ (MessageBroker.exec fuel env s c).1.trace,
      inv ∈ s.trace ∨ inv.listener ≠ l) := by
  intro fuel
  induction fuel with
  | zero =>
    intro s c hs _
    rw [MessageBroker.exec_zero]
    exact ⟨hs, fun inv hm => Or.inl hm⟩
  | succ f ih =>
    intro s c hs hc
    cases c with
    | send data file line =>
      rw [MessageBroker.exec_send]
      exact ih _ .sendAll hs trivial
    | sendAll =>
      rw [MessageBroker.exec_sendAll]
      by_cases h : s.sending
      · simp only [h, if_true]
        exact ⟨hs, fun inv hm => Or.inl hm⟩
      · simp only [h, if_false]
        simpa using ih { s with sending := true } .drain hs trivial
    | drain =>
      rw [MessageBroker.exec_drain]
      cases hm : s.messages with
      | nil =>
        simp only []
        exact ⟨hs, fun inv hmem => Or.inl hmem⟩
      | cons entry rest =>
        simp only []
        have h1 := ih { s with messages := rest } (.sendOne entry) hs trivial
        cases hr : (MessageBroker.exec f env { s with messages := rest }
            (.sendOne entry)).2 with
        | some e =>
          simp only [hr]
          exact ⟨h1.1, fun inv hmem => h1.2 inv hmem⟩
        | none =>
          simp only [hr]
          have h2 := ih _ .drain h1.1 trivial
          refine ⟨h2.1, fun inv hmem => ?_⟩
          rcases h2.2 inv hmem with h3 | h3
          · exact h1.2 inv h3
          · exact Or.inr h3
    | sendOne entry =>
      rw [MessageBroker.exec_sendOne]
      exact ih _ (.invoke entry (s.listeners entry.data.message_type)) hs
        (hs entry.data.message_type)
    | invoke entry ls =>
      cases ls with
      | nil =>
        rw [MessageBroker.exec_invoke_nil]
        exact ⟨hs, fun inv hm => Or.inl hm⟩
      | cons l' ls =>
        have hl' : l' ≠ l := fun he => hc (he ▸ List.mem_cons_self _ _)
        have hls : l ∉ ls := fun hm => hc (List.mem_cons_of_mem _ hm)
        rw [MessageBroker.exec_invoke_cons]
        simp only []
        have h1 := ih { s with trace := s.trace ++ [⟨l', entry.seq, entry.data⟩] }
          (.runActs (env l' entry.data)) hs (henv l' entry.data)
        have htr : ∀ inv ∈ (MessageBroker.exec f env
            { s with trace := s.trace ++ [⟨l', entry.seq, entry.data⟩] }
            (.runActs (env l' entry.data))).1.trace,
            inv ∈ s.trace ∨ inv.listener ≠ l := by
          intro inv hmem
          rcases h1.2 inv hmem with h3 | h3
          · simp at h3
            rcases h3 with h3 | h3
            · exact Or.inl h3
            · exact Or.inr (by rw [h3]; exact hl')
          · exact Or.inr h3
        cases hr : (MessageBroker.exec f env
            { s with trace := s.trace ++ [⟨l', entry.seq, entry.data⟩] }
            (.runActs (env l' entry.data))).2 with
        | some e =>
          simp only [hr]
          exact ⟨h1.1, htr⟩
        | none =>
          simp only [hr]
          have h2 := ih _ (.invoke entry ls) h1.1 hls
          refine ⟨h2.1, fun inv hmem => ?_⟩
          rcases h2.2 inv hmem with h3 | h3
          · exact htr inv h3
          · exact Or.inr h3
    | runActs acts =>
      cases acts with
      | nil =>
        rw [MessageBroker.exec_runActs_nil]
        exact ⟨hs, fun inv hm => Or.inl hm⟩
      | cons a rest =>
        have hrest : ∀ k, LAct.subscribeAct k l ∉ rest :=
          fun k hm => hc k (List.mem_cons_of_mem _ hm)
        cases a with
        | subscribeAct k' l'' =>
          have hne : l'' ≠ l := fun he =>
            hc k' (he ▸ List.mem_cons_self _ _)
          rw [MessageBroker.exec_runActs_sub]
          refine ih _ (.runActs rest) (fun k => ?_) hrest
          simp only [MessageBroker.subscribe]
          by_cases hk : k = k'
          · simp only [hk, if_pos rfl]
            exact setAdd_not_mem (hs k') hne
          · simpa [hk] using hs k
        | unsubscribeAct l'' =>
          rw [MessageBroker.exec_runActs_unsub]
          refine ih _ (.runActs rest) (fun k => ?_) hrest
          simp only [MessageBroker.unsubscribe, setDiscard]
          intro h3
          exact hs k (List.mem_of_mem_filter h3)
        | sendAct data file line =>
          rw [MessageBroker.exec_runActs_send]
          simp only []
          have h1 := ih s (.send data file line) hs trivial
          cases hr : (MessageBroker.exec f env s (.send data file line)).2 with
          | some e =>
            simp only [hr]
            exact h1
          | none =>
            simp only [hr]
            have h2 := ih _ (.runActs rest) h1.1 hrest
            refine ⟨h2.1, fun inv hmem => ?_⟩
            rcases h2.2 inv hmem with h3 | h3
            · exact h1.2 inv h3
            · exact Or.inr h3
        | raiseAct =>
          rw [MessageBroker.exec_runActs_raise]
          exact ⟨hs, fun inv hm => Or.inl hm⟩

/-- Every broker call preserves the FIFO invariant, never decreases the
enqueue counter, and only adds entries to the queue that are newer than
everything enqueued before the call. -/
theorem MessageBroker.exec_seqInv (env : Env) : ∀ (fuel : Nat)
    (s : MessageBroker) (c : Call), SeqInv s → CallPre c s →
    SeqInv (MessageBroker.exec fuel env s c).1 ∧
    s.nextSeq ≤ (MessageBroker.exec fuel env s c).1.nextSeq ∧
    (∀ q ∈ qSeqs (MessageBroker.exec fuel env s c).1,
      q ∈ qSeqs s ∨ s.nextSeq ≤ q) := by
  intro fuel
  induction fuel with
  | zero =>
    intro s c hinv _
    rw [MessageBroker.exec_zero]
    exact ⟨hinv, le_refl _, fun q hq => Or.inl hq⟩
  | succ f ih =>
    intro s c hinv hpre
    obtain ⟨hq1, hq2, ht1, ht2, ht3⟩ := hinv
    cases c with
    | send data file line =>
      rw [MessageBroker.exec_send]
      have hinv3 : SeqInv
          { s with
            messages := s.messages ++ [⟨data, s.nextSeq, file, line⟩]
            nextSeq := s.nextSeq + 1 } := by
        refine ⟨?_, ?_, ?_, ?_, ?_⟩
        · simp only [qSeqs, List.map_append, List.map_cons, List.map_nil]
          rw [List.pairwise_append]
          exact ⟨hq1, List.pairwise_singleton _ _,
            fun a ha b hb => by simp at hb; exact hb ▸ hq2 a ha⟩
        · simp only [qSeqs, List.map_append, List.map_cons, List.map_nil]
          intro q hq
          rcases List.mem_append.mp hq with h | h
          · exact Nat.lt_succ_of_lt (hq2 q h)
          · simp at h
            simp [h]
        · exact ht1
        · simp only [qSeqs, tSeqs, List.map_append, List.map_cons, List.map_nil]
          intro t ht q hq
          rcases List.mem_append.mp hq with h | h
          · exact ht2 t ht q h
          · simp at h
            exact h ▸ ht3 t ht
        · intro t ht
          exact Nat.lt_succ_of_lt (ht3 t ht)
      have h1 := ih _ .sendAll hinv3 trivial
      refine ⟨h1.1, ?_, ?_⟩
      · exact le_trans (Nat.le_succ _) h1.2.1
      · intro q hq
        rcases h1.2.2 q hq with h | h
        · simp only [qSeqs, List.map_append, List.map_cons, List.map_nil] at h
          rcases List.mem_append.mp h with hment | hment
          · exact Or.inl hment
          · simp at hment
            exact Or.inr (le_of_eq hment.symm)
        · exact Or.inr (le_trans (Nat.le_succ _) h)
    | sendAll =>
      rw [MessageBroker.exec_sendAll]
      by_cases h : s.sending
      · simp only [h, if_true]
        exact ⟨⟨hq1, hq2, ht1, ht2, ht3⟩, le_refl _, fun q hq => Or.inl hq⟩
      · simp only [h, if_false]
        have hinv4 : SeqInv { s with sending := true } := ⟨hq1, hq2, ht1, ht2, ht3⟩
        have h1 := ih { s with sending := true } .drain hinv4 rfl
        refine ⟨?_, by simpa using h1.2.1, ?_⟩
        · obtain ⟨a1, a2, a3, a4, a5⟩ := h1.1
          exact ⟨a1, a2, a3, a4, a5⟩
        · intro q hq
          exact h1.2.2 q hq
    | drain =>
      rw [MessageBroker.exec_drain]
      cases hm : s.messages with
      | nil =>
        simp only []
        exact ⟨⟨hq1, hq2, ht1, ht2, ht3⟩, le_refl _, fun q hq => Or.inl hq⟩
      | cons entry rest =>
        simp only []
        have hqcons : qSeqs s = entry.seq :: rest.map QueueEntry.seq := by
          simp [qSeqs, hm]
        have hrestpair : (rest.map QueueEntry.seq).Pairwise (· < ·) :=
          (List.pairwise_cons.mp (hqcons ▸ hq1)).2
        have hheadlt : ∀ q ∈ rest.map QueueEntry.seq, entry.seq < q :=
          (List.pairwise_cons.mp (hqcons ▸ hq1)).1
        have hinv5 : SeqInv { s with messages := rest } := by
          refine ⟨?_, ?_, ht1, ?_, ht3⟩
          · simpa [qSeqs] using hrestpair
          · intro q hq
            exact hq2 q (by rw [hqcons]; exact List.mem_cons_of_mem _ (by simpa [qSeqs] using hq))
          · intro t ht q hq
            exact ht2 t ht q (by rw [hqcons]; exact List.mem_cons_of_mem _ (by simpa [qSeqs] using hq))
        have hok : EntryOk entry { s with messages := rest } := by
          refine ⟨?_, ?_, ?_⟩
          · intro t ht
            exact le_of_lt (ht2 t ht entry.seq (by rw [hqcons]; exact List.mem_cons_self _ _))
          · intro q hq
            exact hheadlt q (by simpa [qSeqs] using hq)
          · exact hq2 entry.seq (by rw [hqcons]; exact List.mem_cons_self _ _)
        have h1 := ih { s with messages := rest } (.sendOne entry) hinv5 ⟨hpre, hok⟩
        cases hr : (MessageBroker.exec f env { s with messages := rest }
            (.sendOne entry)).2 with
        | some e =>
          simp only [hr]
          refine ⟨h1.1, by simpa using h1.2.1, ?_⟩
          intro q hq
          rcases h1.2.2 q hq with h2 | h2
          · exact Or.inl (by rw [hqcons]; exact List.mem_cons_of_mem _ (by simpa [qSeqs] using h2))
          · exact Or.inr (by simpa using h2)
        | none =>
          simp only [hr]
          have hsend : (MessageBroker.exec f env { s with messages := rest }
              (.sendOne entry)).1.sending = true := by
            rw [MessageBroker.exec_sending]
            exact hpre
          have h2 := ih _ .drain h1.1 hsend
          refine ⟨h2.1, le_trans (by simpa using h1.2.1) h2.2.1, ?_⟩
          intro q hq
          rcases h2.2.2 q hq with h3 | h3
          · rcases h1.2.2 q h3 with h4 | h4
            · exact Or.inl (by rw [hqcons]; exact List.mem_cons_of_mem _ (by simpa [qSeqs] using h4))
            · exact Or.inr (by simpa using h4)
          · exact Or.inr (le_trans (by simpa using h1.2.1) h3)
    | sendOne entry =>
      rw [MessageBroker.exec_sendOne]
      obtain ⟨hpre1, hpre2⟩ := hpre
      have hinv6 : SeqInv { s with log := s.log ++ [logLine entry] } :=
        ⟨hq1, hq2, ht1, ht2, ht3⟩
      have hok : EntryOk entry { s with log := s.log ++ [logLine entry] } := hpre2
      exact ih _ (.invoke entry (s.listeners entry.data.message_type)) hinv6
        ⟨hpre1, hok⟩
    | invoke entry ls =>
      obtain ⟨hpre1, hok1, hok2, hok3⟩ := hpre
      cases ls with
      | nil =>
        rw [MessageBroker.exec_invoke_nil]
        exact ⟨⟨hq1, hq2, ht1, ht2, ht3⟩, le_refl _, fun q hq => Or.inl hq⟩
      | cons l ls =>
        rw [MessageBroker.exec_invoke_cons]
        simp only []
        have htsnoc : tSeqs { s with trace := s.trace ++ [⟨l, entry.seq, entry.data⟩] }
            = tSeqs s ++ [entry.seq] := by
          simp [tSeqs]
        have hinv7 : SeqInv { s with trace := s.trace ++ [⟨l, entry.seq, entry.data⟩] } := by
          refine ⟨hq1, hq2, ?_, ?_, ?_⟩
          · rw [htsnoc, List.pairwise_append]
            exact ⟨ht1, List.pairwise_singleton _ _,
              fun a ha b hb => by simp at hb; exact hb ▸ hok1 a ha⟩
          · rw [htsnoc]
            intro t ht q hq
            rcases List.mem_append.mp ht with h | h
            · exact ht2 t h q hq
            · simp at h
              exact h ▸ hok2 q hq
          · rw [htsnoc]
            intro t ht
            rcases List.mem_append.mp ht with h | h
            · exact ht3 t h
            · simp at h
              exact h ▸ hok3
        have hok4 : EntryOk entry { s with trace := s.trace ++ [⟨l, entry.seq, entry.data⟩] } := by
          refine ⟨?_, hok2, hok3⟩
          rw [htsnoc]
          intro t ht
          rcases List.mem_append.mp ht with h | h
          · exact hok1 t h
          · simp at h
            exact le_of_eq h
        have h1 := ih { s with trace := s.trace ++ [⟨l, entry.seq, entry.data⟩] }
          (.runActs (env l entry.data)) hinv7 (by simpa using hpre1)
        have htrq : (MessageBroker.exec f env
            { s with trace := s.trace ++ [⟨l, entry.seq, entry.data⟩] }
            (.runActs (env l entry.data))).1.trace =
            s.trace ++ [⟨l, entry.seq, entry.data⟩] := by
          simpa using MessageBroker.exec_quiet env f
            { s with trace := s.trace ++ [⟨l, entry.seq, entry.data⟩] }
            (.runActs (env l entry.data)) (by simpa using hpre1) trivial
        cases hr : (MessageBroker.exec f env
            { s with trace := s.trace ++ [⟨l, entry.seq, entry.data⟩] }
            (.runActs (env l entry.data))).2 with
        | some e =>
          simp only [hr]
          refine ⟨h1.1, by simpa using h1.2.1, ?_⟩
          intro q hq
          rcases h1.2.2 q hq with h2 | h2
          · exact Or.inl (by simpa [qSeqs] using h2)
          · exact Or.inr (by simpa using h2)
        | none =>
          simp only [hr]
          have hsend2 : (MessageBroker.exec f env
              { s with trace := s.trace ++ [⟨l, entry.seq, entry.data⟩] }
              (.runActs (env l entry.data))).1.sending = true := by
            rw [MessageBroker.exec_sending]
            simpa using hpre1
          have hok5 : EntryOk entry (MessageBroker.exec f env
              { s with trace := s.trace ++ [⟨l, entry.seq, entry.data⟩] }
              (.runActs (env l entry.data))).1 := by
            refine ⟨?_, ?_, ?_⟩
            · intro t ht
              rw [tSeqs, htrq] at ht
              exact hok4.1 t (by simpa [tSeqs] using ht)
            · intro q hq
              rcases h1.2.2 q hq with h2 | h2
              · exact hok4.2.1 q h2
              · exact lt_of_lt_of_le (by simpa using hok3) h2
            · exact lt_of_lt_of_le hok3 (by simpa using h1.2.1)
          have h2 := ih _ (.invoke entry ls) h1.1 ⟨hsend2, hok5⟩
          refine ⟨h2.1, le_trans (by simpa using h1.2.1) h2.2.1, ?_⟩
          intro q hq
          rcases h2.2.2 q hq with h3 | h3
          · rcases h1.2.2 q h3 with h4 | h4
            · exact Or.inl (by simpa [qSeqs] using h4)
            · exact Or.inr (by simpa using h4)
          · exact Or.inr (le_trans (by simpa using h1.2.1) h3)
    | runActs acts =>
      cases acts with
      | nil =>
        rw [MessageBroker.exec_runActs_nil]
        exact ⟨⟨hq1, hq2, ht1, ht2, ht3⟩, le_refl _, fun q hq => Or.inl hq⟩
      | cons a rest =>
        cases a with
        | subscribeAct k l =>
          rw [MessageBroker.exec_runActs_sub]
          have hinv8 : SeqInv (s.subscribe k l) := ⟨hq1, hq2, ht1, ht2, ht3⟩
          have h1 := ih _ (.runActs rest) hinv8
            (by simpa [MessageBroker.subscribe] using hpre)
          exact ⟨h1.1, by simpa [MessageBroker.subscribe] using h1.2.1,
            fun q hq => by
              rcases h1.2.2 q hq with h2 | h2
              · exact Or.inl (by simpa [qSeqs, MessageBroker.subscribe] using h2)
              · exact Or.inr (by simpa [MessageBroker.subscribe] using h2)⟩
        | unsubscribeAct l =>
          rw [MessageBroker.exec_runActs_unsub]
          have hinv9 : SeqInv (s.unsubscribe l) := ⟨hq1, hq2, ht1, ht2, ht3⟩
          have h1 := ih _ (.runActs rest) hinv9
            (by simpa [MessageBroker.unsubscribe] using hpre)
          exact ⟨h1.1, by simpa [MessageBroker.unsubscribe] using h1.2.1,
            fun q hq => by
              rcases h1.2.2 q hq with h2 | h2
              · exact Or.inl (by simpa [qSeqs, MessageBroker.unsubscribe] using h2)
              · exact Or.inr (by simpa [MessageBroker.unsubscribe] using h2)⟩
        | sendAct data file line =>
          rw [MessageBroker.exec_runActs_send]
          simp only []
          have h1 := ih s (.send data file line) ⟨hq1, hq2, ht1, ht2, ht3⟩ trivial
          cases hr : (MessageBroker.exec f env s (.send data file line)).2 with
          | some e =>
            simp only [hr]
            exact ⟨h1.1, h1.2.1, h1.2.2⟩
          | none =>
            simp only [hr]
            have hsend3 : (MessageBroker.exec f env s
                (.send data file line)).1.sending = true := by
              rw [MessageBroker.exec_sending]
              exact hpre
            have h2 := ih _ (.runActs rest) h1.1 hsend3
            refine ⟨h2.1, le_trans h1.2.1 h2.2.1, ?_⟩
            intro q hq
            rcases h2.2.2 q hq with h3 | h3
            · rcases h1.2.2 q h3 with h4 | h4
              · exact Or.inl h4
              · exact Or.inr h4
            · exact Or.inr (le_trans h1.2.1 h3)
        | raiseAct =>
          rw [MessageBroker.exec_runActs_raise]
          exact ⟨⟨hq1, hq2, ht1, ht2, ht3⟩, le_refl _, fun q hq => Or.inl hq⟩

/-! ## The claims -/

/-- C1: for every pair of messages enqueued in that order on one broker
instance — including a message enqueued by a listener while it is handling
an earlier one — every listener invocation for the earlier message occurs
before any listener invocation for the later one.  Formally: after any
`send` from a state satisfying the FIFO invariant, the recorded
invocations are pairwise ordered by enqueue sequence number (nested sends
are appended to the same queue, never processed depth-first), and the
pending queue itself remains in strictly increasing enqueue order. -/
theorem claim_c1_fifo_order (fuel : Nat) (env : Env) (s : MessageBroker)
    (data : Message) (file : String) (line : Nat) (hinv : SeqInv s) :
    ((MessageBroker.send fuel env s data file line).1.trace).Pairwise
      (fun a b => a.seq ≤ b.seq) ∧
    ((MessageBroker.send fuel env s data file line).1.messages).Pairwise
      (fun a b => a.seq < b.seq) := by
  have h := MessageBroker.exec_seqInv env fuel s (.send data file line)
    hinv trivial
  obtain ⟨⟨h1, _, h3, _, _⟩, _, _⟩ := h
  constructor
  · have := (List.pairwise_map).mp h3
    exact this
  · have := (List.pairwise_map).mp h1
    exact this

/-- C1 witness: in the FIFO scenario, listener 1 sends a `test2` message
while handling the first `test1` message; both listeners of `test1` are
served before listener 3 sees the nested message, and the trace is
ordered by enqueue sequence number. -/
theorem claim_c1_fifo_order_witness :
    SeqInv fifoState ∧
    ((MessageBroker.send 50 fifoEnv fifoState (Message.signal .test1)
        srcFile 1).1.trace).Pairwise (fun a b => a.seq ≤ b.seq) ∧
    (MessageBroker.send 50 fifoEnv fifoState (Message.signal .test1)
        srcFile 1).1.trace =
      [⟨1, 0, Message.signal .test1⟩, ⟨2, 0, Message.signal .test1⟩,
       ⟨3, 1, Message.signal .test2⟩] := by
  have hinv : SeqInv fifoState :=
    ⟨by decide, by decide, by decide, by decide, by decide⟩
  exact ⟨hinv,
    (claim_c1_fifo_order 50 fifoEnv fifoState (Message.signal .test1)
      srcFile 1 hinv).1,
    by decide⟩

/-- C2: at most one drain executes at a time per broker instance.  A
`send` issued while the flag is up only appends its entry to the queue
and returns at once, without starting a second drain; and because the
in-progress drain re-checks the queue after each pop, it finishes only
once the queue — including any entry appended during the drain — is
empty. -/
theorem claim_c2_single_drain (fuel : Nat) (env : Env) (s : MessageBroker)
    (data : Message) (file : String) (line : Nat) :
    (s.sending = true →
      MessageBroker.send (fuel + 2) env s data file line =
        ({ s with
            messages := s.messages ++ [⟨data, s.nextSeq, file, line⟩]
            nextSeq := s.nextSeq + 1 }, none)) ∧
    (s.sending = false →
      (MessageBroker.exec fuel env s .sendAll).2 = none →
      (MessageBroker.exec fuel env s .sendAll).1.messages = []) := by
  constructor
  · intro h
    rw [MessageBroker.send, MessageBroker.exec_send, MessageBroker.exec_sendAll]
    simp [h]
  · intro h1 h2
    exact MessageBroker.sendAll_empty env fuel s _ h1 (by rw [← h2])

/-- C2 witness: a `send` against a mid-drain broker only enqueues, and
the drain of a two-entry queue (during which listener 1 appends a third
entry) finishes with an empty queue. -/
theorem claim_c2_single_drain_witness :
    (MessageBroker.send (10 + 2) envNil busyState (Message.signal .test2)
        srcFile 5 =
      ({ busyState with
          messages := busyState.messages ++
            [⟨Message.signal .test2, busyState.nextSeq, srcFile, 5⟩]
          nextSeq := busyState.nextSeq + 1 }, none)) ∧
    (MessageBroker.exec 40 fifoEnv pendingState .sendAll).1.messages = [] := by
  constructor
  · exact (claim_c2_single_drain 10 envNil busyState (Message.signal .test2)
      srcFile 5).1 rfl
  · exact (claim_c2_single_drain 40 fifoEnv pendingState (Message.signal .test2)
      srcFile 5).2 rfl (by decide)

/-- C3: dispatch of one queue entry invokes exactly the listeners in the
copy of the set registered for the entry kind at pop time, each once and
in snapshot order, no matter how the invoked listeners mutate the
registry (subscribing, unsubscribing others or unsubscribing themselves):
the fan-out is not corrupted, every other listener of the snapshot is
still invoked for the same message, and registry changes are only read
again at the next dispatched entry. -/
theorem claim_c3_snapshot_dispatch (fuel : Nat) (env : Env)
    (s : MessageBroker) (e : QueueEntry) (h : s.sending = true)
    (hok : (MessageBroker.exec fuel env s (.sendOne e)).2 = none) :
    (MessageBroker.exec fuel env s (.sendOne e)).1.trace =
      s.trace ++ (s.listeners e.data.message_type).map
        (fun l => ⟨l, e.seq, e.data⟩) := by
  cases fuel with
  | zero =>
    rw [MessageBroker.exec_zero] at hok
    simp at hok
  | succ f =>
    rw [MessageBroker.exec_sendOne] at hok ⊢
    have := MessageBroker.invoke_trace env f
      { s with log := s.log ++ [logLine e] } e
      (s.listeners e.data.message_type) (by simpa using h) hok
    simpa using this

/-- C3 witness: while listener 1 handles the dispatched `test1` entry it
unsubscribes both itself and listener 2 and subscribes listener 4, yet no
error arises, listener 2 is still invoked for the same entry, and the
registry change is in force for the next entry (only listener 4 remains
registered). -/
theorem claim_c3_snapshot_dispatch_witness :
    (MessageBroker.exec 20 snapEnv snapState (.sendOne snapEntry)).2 = none ∧
    (MessageBroker.exec 20 snapEnv snapState (.sendOne snapEntry)).1.trace =
      snapState.trace ++
        (snapState.listeners snapEntry.data.message_type).map
          (fun l => ⟨l, snapEntry.seq, snapEntry.data⟩) ∧
    (MessageBroker.exec 20 snapEnv snapState (.sendOne snapEntry)).1.trace =
      [⟨1, 0, Message.signal .test1⟩, ⟨2, 0, Message.signal .test1⟩] ∧
    (MessageBroker.exec 20 snapEnv snapState
        (.sendOne snapEntry)).1.listeners .test1 = [4] := by
  refine ⟨by decide, ?_, by decide, by decide⟩
  exact claim_c3_snapshot_dispatch 20 snapEnv snapState snapEntry rfl (by decide)

/-- C4: a listener exception propagates uncaught out of the original
`send` call; the reentrancy flag is cleared by the unconditional cleanup;
the entries still queued behind the failing one are not dispatched during
that call but remain in the queue; and a subsequent `send` issued when no
drain is in progress that returns normally leaves the queue fully
drained, leftovers included. -/
theorem claim_c4_listener_exception (fuel : Nat) (env : Env)
    (s : MessageBroker) (data : Message) (file : String) (line : Nat) :
    ((MessageBroker.send fuel env s data file line).1.sending = s.sending) ∧
    (SeqInv s →
      ∀ q ∈ qSeqs (MessageBroker.send fuel env s data file line).1,
        q ∉ tSeqs (MessageBroker.send fuel env s data file line).1) ∧
    (s.sending = false →
      (MessageBroker.send fuel env s data file line).2 = none →
      (MessageBroker.send fuel env s data file line).1.messages = []) ∧
    (∀ (l : ListenerId) (ls : List ListenerId) (f2 : Nat),
      s.sending = false → s.messages = [] →
      s.listeners data.message_type = l :: ls →
      env l data = [LAct.raiseAct] →
      (MessageBroker.send (f2 + 6) env s data file line).2 =
          some .listenerExc ∧
        (MessageBroker.send (f2 + 6) env s data file line).1.trace =
          s.trace ++ [⟨l, s.nextSeq, data⟩] ∧
        (MessageBroker.send (f2 + 6) env s data file line).1.sending =
          false) := by
  refine ⟨?_, ?_, ?_, ?_⟩
  · exact MessageBroker.exec_sending env fuel s (.send data file line)
  · intro hinv q hq hmem
    have h := MessageBroker.exec_seqInv env fuel s (.send data file line)
      hinv trivial
    exact absurd (h.1.2.2.2.1 q hmem q hq) (lt_irrefl q)
  · intro h1 h2
    exact MessageBroker.send_empty env fuel s _ data file line h1 (by rw [← h2])
  · intro l ls f2 hs hm hl ha
    rw [MessageBroker.send, MessageBroker.exec_send, MessageBroker.exec_sendAll]
    simp only [hs, hm, List.nil_append, Bool.false_eq_true, if_false]
    rw [MessageBroker.exec_drain]
    simp only [MessageBroker.exec_sendOne]
    rw [hl, MessageBroker.exec_invoke_cons]
    simp only [ha, MessageBroker.exec_runActs_raise]
    simp

/-- C4 witness: listener 1 sends a `test2` message and then raises while
handling `test1`.  The exception propagates out of `send`, the flag is
back down, the nested `test2` entry is still queued and was never
dispatched, and a later `send` drains it; the pure-raise scenario shows
the propagated exception directly. -/
theorem claim_c4_listener_exception_witness :
    (MessageBroker.send 50 c4Env raiseState (Message.signal .test1)
        srcFile 1).2 = some .listenerExc ∧
    (MessageBroker.send 50 c4Env raiseState (Message.signal .test1)
        srcFile 1).1.sending = raiseState.sending ∧
    (MessageBroker.send 50 c4Env raiseState (Message.signal .test1)
        srcFile 1).1.messages =
      [⟨Message.signal .test2, 1, srcFile, 11⟩] ∧
    (1 : Nat) ∈ qSeqs (MessageBroker.send 50 c4Env raiseState
        (Message.signal .test1) srcFile 1).1 ∧
    (1 : Nat) ∉ tSeqs (MessageBroker.send 50 c4Env raiseState
        (Message.signal .test1) srcFile 1).1 ∧
    (MessageBroker.send 60 c4Env
        (MessageBroker.send 50 c4Env raiseState (Message.signal .test1)
          srcFile 1).1
        (Message.signal .test2) srcFile 2).1.messages = [] ∧
    (MessageBroker.send (44 + 6) raiseEnv raiseState (Message.signal .test1)
        srcFile 1).2 = some .listenerExc := by
  refine ⟨by decide, ?_, by decide, by decide, ?_, ?_, ?_⟩
  · exact (claim_c4_listener_exception 50 c4Env raiseState
      (Message.signal .test1) srcFile 1).1
  · exact (claim_c4_listener_exception 50 c4Env raiseState
      (Message.signal .test1) srcFile 1).2.1
      ⟨by decide, by decide, by decide, by decide, by decide⟩ 1 (by decide)
  · exact (claim_c4_listener_exception 60 c4Env
      (MessageBroker.send 50 c4Env raiseState (Message.signal .test1)
        srcFile 1).1
      (Message.signal .test2) srcFile 2).2.2.1 (by decide) (by decide)
  · exact ((claim_c4_listener_exception 1 raiseEnv raiseState
      (Message.signal .test1) srcFile 1).2.2.2 1 [2] 44 (by decide) (by decide)
      (by decide) (by decide)).1

/-- C5: subscribing the same listener to the same kind twice leaves the
registry exactly as subscribing it once does; the listener appears once in
the registry entry for that kind; and dispatching a message of that kind
afterwards invokes the listener exactly once. -/
theorem claim_c5_subscribe_idempotent (s : MessageBroker) (k : MessageType)
    (l : ListenerId) (h : l ∉ s.listeners k) :
    ((s.subscribe k l).subscribe k l).listeners =
      (s.subscribe k l).listeners ∧
    ((s.subscribe k l).listeners k).count l = 1 ∧
    (∀ (fuel : Nat) (env : Env) (e : QueueEntry),
      e.data.message_type = k →
      ((s.subscribe k l).subscribe k l).sending = true →
      (MessageBroker.exec fuel env ((s.subscribe k l).subscribe k l)
          (.sendOne e)).2 = none →
      ((MessageBroker.exec fuel env ((s.subscribe k l).subscribe k l)
          (.sendOne e)).1.trace).count ⟨l, e.seq, e.data⟩ =
        s.trace.count ⟨l, e.seq, e.data⟩ + 1) := by
  have e1 : (s.subscribe k l).listeners k = s.listeners k ++ [l] := by
    simp [MessageBroker.subscribe, setAdd, h]
  have e2 : ((s.subscribe k l).subscribe k l).listeners k =
      s.listeners k ++ [l] := by
    simp [MessageBroker.subscribe, setAdd, h]
  refine ⟨?_, ?_, ?_⟩
  · funext k'
    by_cases hk : k' = k
    · rw [hk, e2, e1]
    · simp [MessageBroker.subscribe, hk]
  · rw [e1, List.count_append]
    simp [List.count_eq_zero_of_not_mem h]
  · intro fuel env e he hsend hok
    cases fuel with
    | zero =>
      rw [MessageBroker.exec_zero] at hok
      simp at hok
    | succ f =>
      rw [MessageBroker.exec_sendOne] at hok ⊢
      have htr := MessageBroker.invoke_trace env f
        { (s.subscribe k l).subscribe k l with
          log := ((s.subscribe k l).subscribe k l).log ++ [logLine e] } e
        (((s.subscribe k l).subscribe k l).listeners e.data.message_type)
        (by simpa using hsend) hok
      rw [htr]
      have hinj : Function.Injective
          (fun x : ListenerId => (⟨x, e.seq, e.data⟩ : Invocation)) :=
        fun a b hab => by simpa using congrArg Invocation.listener hab
      have hcnt := List.count_map_of_injective
        (((s.subscribe k l).subscribe k l).listeners e.data.message_type)
        (fun x : ListenerId => (⟨x, e.seq, e.data⟩ : Invocation)) hinj l
      rw [List.count_append]
      simp only []
      rw [hcnt, he, e2, List.count_append,
        List.count_eq_zero_of_not_mem h]
      simp [MessageBroker.subscribe]

/-- C5 witness: subscribing fresh listener 7 to `test1` twice yields the
same registry as subscribing once, listener 7 appears once, and the
dispatch of a `test1` entry invokes it exactly once (concretely: after
listeners 1 and 2). -/
theorem claim_c5_subscribe_idempotent_witness :
    ((c5State.subscribe .test1 7).subscribe .test1 7).listeners =
      (c5State.subscribe .test1 7).listeners ∧
    ((c5State.subscribe .test1 7).listeners .test1).count 7 = 1 ∧
    ((MessageBroker.exec 20 envNil ((c5State.subscribe .test1 7).subscribe
        .test1 7) (.sendOne ⟨Message.signal .test1, 0, srcFile, 2⟩)).1.trace).count
      ⟨7, 0, Message.signal .test1⟩ =
      c5State.trace.count ⟨7, 0, Message.signal .test1⟩ + 1 ∧
    (MessageBroker.exec 20 envNil ((c5State.subscribe .test1 7).subscribe
        .test1 7) (.sendOne ⟨Message.signal .test1, 0, srcFile, 2⟩)).1.trace =
      [⟨1, 0, Message.signal .test1⟩, ⟨2, 0, Message.signal .test1⟩,
       ⟨7, 0, Message.signal .test1⟩] := by
  have h7 : (7 : ListenerId) ∉ c5State.listeners .test1 := by decide
  refine ⟨(claim_c5_subscribe_idempotent c5State .test1 7 h7).1,
    (claim_c5_subscribe_idempotent c5State .test1 7 h7).2.1,
    (claim_c5_subscribe_idempotent c5State .test1 7 h7).2.2 20 envNil
      ⟨Message.signal .test1, 0, srcFile, 2⟩ rfl (by decide) (by decide),
    by decide⟩

/-- C6: `unsubscribe(L)` removes L from the listener set of every kind;
no message sent afterwards invokes L (as long as no listener body
re-subscribes it); and unsubscribing a listener that is not registered
anywhere raises nothing and is a complete no-op. -/
theorem claim_c6_unsubscribe_removes_everywhere (s : MessageBroker)
    (l : ListenerId) :
    (∀ k, l ∉ (s.unsubscribe l).listeners k) ∧
    ((∀ k, l ∉ s.listeners k) → s.unsubscribe l = s) ∧
    (∀ (fuel : Nat) (env : Env) (data : Message) (file : String)
      (line : Nat),
      (∀ l' m k, LAct.subscribeAct k l ∉ env l' m) →
      ∀ inv ∈ (MessageBroker.send fuel env (s.unsubscribe l) data file
          line).1.trace,
        inv ∈ s.trace ∨ inv.listener ≠ l) := by
  have habs : ∀ k, l ∉ (s.unsubscribe l).listeners k := by
    intro k
    simp [MessageBroker.unsubscribe, setDiscard, List.mem_filter]
  refine ⟨habs, ?_, ?_⟩
  · intro hnone
    have hfix : (fun k => setDiscard (s.listeners k) l) = s.listeners := by
      funext k
      unfold setDiscard
      apply List.filter_eq_self.mpr
      intro a ha
      simp only [ne_eq, decide_eq_true_eq]
      intro hEq
      exact hnone k (hEq ▸ ha)
    unfold MessageBroker.unsubscribe
    rw [hfix]
  · intro fuel env data file line henv inv hmem
    have h := (MessageBroker.exec_no_ghost env l henv fuel (s.unsubscribe l)
      (.send data file line) habs trivial).2 inv hmem
    simpa [MessageBroker.unsubscribe] using h

/-- C6 witness: unsubscribing listener 2 removes it from `test1` (and it
was never under `test2`); a `test1` message sent afterwards invokes only
listener 1; and unsubscribing the never-registered listener 9 is a
no-op. -/
theorem claim_c6_unsubscribe_removes_everywhere_witness :
    (2 : ListenerId) ∉ (fifoState.unsubscribe 2).listeners .test1 ∧
    (2 : ListenerId) ∉ (fifoState.unsubscribe 2).listeners .test2 ∧
    fifoState.unsubscribe 9 = fifoState ∧
    ((⟨1, 0, Message.signal .test1⟩ : Invocation) ∈ fifoState.trace ∨
      (⟨1, 0, Message.signal .test1⟩ : Invocation).listener ≠ 2) ∧
    (MessageBroker.send 30 envNil (fifoState.unsubscribe 2)
        (Message.signal .test1) srcFile 8).1.trace =
      [⟨1, 0, Message.signal .test1⟩] := by
  refine ⟨(claim_c6_unsubscribe_removes_everywhere fifoState 2).1 .test1,
    (claim_c6_unsubscribe_removes_everywhere fifoState 2).1 .test2,
    (claim_c6_unsubscribe_removes_everywhere fifoState 9).2.1 (by decide),
    (claim_c6_unsubscribe_removes_everywhere fifoState 2).2.2 30 envNil
      (Message.signal .test1) srcFile 8
      (by intro l' m k; simp [envNil]) ⟨1, 0, Message.signal .test1⟩
      (by decide),
    by decide⟩

/-- C7: `signal(K)` is literally `send(Signal(K))`; the message it
delivers carries kind K; and two Signals are equal under the rendered
textual-form equality of `Signal.__eq__` precisely when they carry the
same kind. -/
theorem claim_c7_signal_send_eq :
    (∀ (fuel : Nat) (env : Env) (s : MessageBroker) (k : MessageType)
      (file : String) (line : Nat),
      MessageBroker.signal fuel env s k file line =
        MessageBroker.send fuel env s (.signal k) file line) ∧
    (∀ k : MessageType, (Message.signal k).message_type = k) ∧
    (∀ k1 k2 : MessageType,
      msgEq (.signal k1) (.signal k2) = true ↔ k1 = k2) :=
  ⟨fun _ _ _ _ _ _ => rfl, fun _ => rfl, by decide⟩

/-- C9: `send` never fails for a well-formed message — the broker itself
raises nothing, so with no raising listener no exception emerges; in
particular `signal(K)` with zero subscribers for K completes without
error, changing nothing but the log and the enqueue counter,
and afterwards the set registered for K is still empty. -/
theorem claim_c9_send_never_fails (fuel : Nat) (env : Env)
    (s : MessageBroker) (k : MessageType) (data : Message)
    (file : String) (line : Nat) :
    ((∀ l m, LAct.raiseAct ∉ env l m) →
      (MessageBroker.send fuel env s data file line).2 ≠
        some .listenerExc) ∧
    (s.sending = false → s.messages = [] → s.listeners k = [] →
      MessageBroker.signal (fuel + 5) env s k file line =
        ({ s with
            log := s.log ++
              [logLine ⟨Message.signal k, s.nextSeq, file, line⟩]
            nextSeq := s.nextSeq + 1 }, none)) ∧
    (s.sending = false → s.messages = [] → s.listeners k = [] →
      (MessageBroker.signal (fuel + 5) env s k file line).1.listeners k
        = []) := by
  have h2 : s.sending = false → s.messages = [] → s.listeners k = [] →
      MessageBroker.signal (fuel + 5) env s k file line =
        ({ s with
            log := s.log ++
              [logLine ⟨Message.signal k, s.nextSeq, file, line⟩]
            nextSeq := s.nextSeq + 1 }, none) := by
    intro hs hm hl
    rw [MessageBroker.signal, MessageBroker.send, MessageBroker.exec_send,
      MessageBroker.exec_sendAll]
    simp only [hs, hm, List.nil_append, Bool.false_eq_true, if_false]
    rw [MessageBroker.exec_drain]
    simp only [MessageBroker.exec_sendOne]
    rw [show (Message.signal k).message_type = k from rfl, hl,
      MessageBroker.exec_invoke_nil]
    rw [MessageBroker.exec_drain]
  refine ⟨?_, h2, ?_⟩
  · intro henv
    exact MessageBroker.exec_no_raise env henv fuel s
      (.send data file line) trivial
  · intro hs hm hl
    rw [h2 hs hm hl]
    simpa using hl

/-- C9 witness: with no raising listener the send cannot raise, and
`signal(reset_gui)` with zero subscribers completes without error,
touching only the log and the enqueue counter, leaving the `reset_gui`
registry empty. -/
theorem claim_c9_send_never_fails_witness :
    (MessageBroker.send 10 envNil fifoState (Message.signal .test1)
        srcFile 1).2 ≠ some .listenerExc ∧
    MessageBroker.signal (10 + 5) envNil fifoState .reset_gui srcFile 2 =
      ({ fifoState with
          log := fifoState.log ++
            [logLine ⟨Message.signal .reset_gui, fifoState.nextSeq, srcFile, 2⟩]
          nextSeq := fifoState.nextSeq + 1 }, none) ∧
    (MessageBroker.signal (10 + 5) envNil fifoState .reset_gui srcFile
        2).1.listeners .reset_gui = [] := by
  refine ⟨(claim_c9_send_never_fails 10 envNil fifoState .reset_gui
      (Message.signal .test1) srcFile 1).1 (by intro l m; simp [envNil]),
    (claim_c9_send_never_fails 10 envNil fifoState .reset_gui
      (Message.signal .test1) srcFile 2).2.1 rfl rfl (by decide),
    (claim_c9_send_never_fails 10 envNil fifoState .reset_gui
      (Message.signal .test1) srcFile 2).2.2 rfl rfl (by decide)⟩

/-- C8 counterexample: `Signal` is a plain class, not a frozen dataclass,
so assigning its `message_type` after construction succeeds and changes
the discriminant — refuting the claim that every Message variant has an
immutable discriminant. -/
theorem claim_c8_counterexample :
    setMessageType (Message.signal .test1) .test2 =
      .ok (Message.signal .test2) ∧
    (Message.signal .test2).message_type ≠
      (Message.signal .test1).message_type :=
  ⟨rfl, by decide⟩

/-- C8 (amended): every frozen dataclass variant is immutable after
construction — any attribute assignment raises FrozenInstanceError — and
equality between two payload messages of the same variant is structural,
by field values, not by identity; the zero-payload `Signal` variant,
however, is a plain class and its `message_type` attribute is
reassignable after construction. -/
theorem claim_c8_frozen_payload_immutable (m : Message) (k : MessageType) :
    (m.isSignal = false →
      setMessageType m k = .error .frozenInstanceError) ∧
    (∀ u1 u2, msgEq (.uinputsData u1) (.uinputsData u2) = true ↔ u1 = u2) ∧
    (∀ g1 g2, msgEq (.groupsData g1) (.groupsData g2) = true ↔ g1 = g2) ∧
    (∀ k1 p1 k2 p2, msgEq (.groupData k1 p1) (.groupData k2 p2) = true ↔
      (k1 = k2 ∧ p1 = p2)) ∧
    (∀ n1 mp1 a1 n2 mp2 a2,
      msgEq (.presetData n1 mp1 a1) (.presetData n2 mp2 a2) = true ↔
      (n1 = n2 ∧ mp1 = mp2 ∧ a1 = a2)) ∧
    (∀ i1 s1 t1 i2 s2 t2,
      msgEq (.statusData i1 s1 t1) (.statusData i2 s2 t2) = true ↔
      (i1 = i2 ∧ s1 = s2 ∧ t1 = t2)) ∧
    (∀ c1 c2, msgEq (.combinationRecorded c1) (.combinationRecorded c2)
      = true ↔ c1 = c2) ∧
    (∀ o1 n1 o2 n2,
      msgEq (.combinationUpdate o1 n1) (.combinationUpdate o2 n2) = true ↔
      (o1 = o2 ∧ n1 = n2)) ∧
    (∀ s1 r1 s2 r2,
      msgEq (.userConfirmRequest s1 r1) (.userConfirmRequest s2 r2) = true ↔
      (s1 = s2 ∧ r1 = r2)) ∧
    (∀ p1 p2, msgEq (.doStackSwitch p1) (.doStackSwitch p2) = true ↔
      p1 = p2) ∧
    (∀ k1 k2, setMessageType (Message.signal k1) k2 =
      .ok (Message.signal k2)) := by
  refine ⟨?_, ?_, ?_, ?_, ?_, ?_, ?_, ?_, ?_, ?_, fun k1 k2 => rfl⟩
  · intro h
    cases m <;> first
      | rfl
      | simp [Message.isSignal] at h
  all_goals (intros; simp [msgEq, and_assoc])

/-- C8 witness: the dataclass variant `DoStackSwitch` rejects attribute
assignment with FrozenInstanceError, while the plain-class `Signal`
accepts it. -/
theorem claim_c8_frozen_payload_immutable_witness :
    (Message.doStackSwitch 3).isSignal = false ∧
    setMessageType (Message.doStackSwitch 3) .test1 =
      .error .frozenInstanceError ∧
    setMessageType (Message.signal .test1) .test2 =
      .ok (Message.signal .test2) := by
  refine ⟨rfl,
    (claim_c8_frozen_payload_immutable (Message.doStackSwitch 3) .test1).1 rfl,
    (claim_c8_frozen_payload_immutable (Message.doStackSwitch 3)
      .test1).2.2.2.2.2.2.2.2.2.2 .test1 .test2⟩

/-! ## Run-shortening: lemmas about the regex scan -/

theorem leadingDigits_nondigit (c : Char) (rest : List Char)
    (h : c.isDigit = false) : leadingDigits (c :: rest) = 0 := by
  simp [leadingDigits, h]

theorem leadingDigits_all_append (d T : List Char)
    (hd : ∀ c ∈ d, c.isDigit = true) :
    leadingDigits (d ++ T) = d.length + leadingDigits T := by
  induction d with
  | nil => simp
  | cons c d ih =>
    have hc : c.isDigit = true := hd c (List.mem_cons_self _ _)
    have ih2 := ih (fun c hm => hd c (List.mem_cons_of_mem _ hm))
    simp [leadingDigits, hc, ih2]
    omega

theorem leadingDigits_stop (d : List Char) (b : Char) (T : List Char)
    (hd : ∀ c ∈ d, c.isDigit = true) (hb : b.isDigit = false) :
    leadingDigits (d ++ b :: T) = d.length := by
  rw [leadingDigits_all_append d _ hd, leadingDigits_nondigit b T hb]
  omega

theorem leadingDigits_le (cs : List Char) : leadingDigits cs ≤ cs.length := by
  induction cs with
  | nil => simp [leadingDigits]
  | cons c rest ih =>
    by_cases h : c.isDigit
    · simp [leadingDigits, h]
      omega
    · simp [leadingDigits, h]

/-- The character right after the leading digit block is not a digit. -/
theorem leadingDigits_drop_head (cs : List Char) (b : Char) (t : List Char)
    (h : cs.drop (leadingDigits cs) = b :: t) : b.isDigit = false := by
  induction cs with
  | nil => simp at h
  | cons c rest ih =>
    by_cases hc : c.isDigit
    · simp only [leadingDigits, hc, if_true, List.drop_succ_cons] at h
      exact ih h
    · simp only [leadingDigits, hc, if_false, List.drop_zero] at h
      cases h
      simpa using hc

/-- The leading digit block consists of digits. -/
theorem leadingDigits_take (cs : List Char) :
    ∀ c ∈ cs.take (leadingDigits cs), c.isDigit = true := by
  induction cs with
  | nil => simp
  | cons c rest ih =>
    by_cases hc : c.isDigit
    · simp only [leadingDigits, hc, if_true, List.take_succ_cons]
      intro a ha
      rcases List.mem_cons.mp ha with h | h
      · rw [h]; exact hc
      · exact ih a h
    · simp [leadingDigits, hc]

theorem parseGroupLen_nondigit (c : Char) (rest : List Char)
    (h : c.isDigit = false) : parseGroupLen (c :: rest) = none := by
  simp [parseGroupLen, leadingDigits_nondigit c rest h]

theorem parseGroupLen_group (d T : List Char) (hd : AllDigits d) :
    parseGroupLen (d ++ ',' :: ' ' :: T) = some (d.length + 2) := by
  obtain ⟨hne, hdig⟩ := hd
  have hld : leadingDigits (d ++ ',' :: ' ' :: T) = d.length :=
    leadingDigits_stop d ',' (' ' :: T) hdig (by decide)
  have hlen : d.length ≠ 0 := fun h => hne (List.length_eq_zero.mp h)
  simp only [parseGroupLen, hld, hlen, if_false, List.drop_left]

theorem parseGroupLen_blocked (d : List Char) (b : Char) (T : List Char)
    (hd : AllDigits d) (hb : b ≠ ',') (hbd : b.isDigit = false) :
    parseGroupLen (d ++ b :: T) = none := by
  obtain ⟨hne, hdig⟩ := hd
  have hld : leadingDigits (d ++ b :: T) = d.length :=
    leadingDigits_stop d b T hdig hbd
  have hlen : d.length ≠ 0 := fun h => hne (List.length_eq_zero.mp h)
  simp only [parseGroupLen, hld, hlen, if_false, List.drop_left]
  split
  · rename_i tail heq
    injection heq with h1 _
    exact absurd h1 hb
  · rfl

theorem parseRunLenAux_none (cs : List Char) (h : parseGroupLen cs = none) :
    ∀ fuel, parseRunLenAux fuel cs = none := by
  intro fuel
  cases fuel with
  | zero => rfl
  | succ f => simp [parseRunLenAux, h]

theorem inert_parseGroupLen (p : List Char) (hp : inertSuffix p = true)
    (hne : p ≠ []) (T : List Char) : parseGroupLen (p ++ T) = none := by
  cases p with
  | nil => exact absurd rfl hne
  | cons c rest =>
    by_cases hc : c.isDigit
    · simp only [inertSuffix, hc, if_true] at hp
      cases hq : (c :: rest).drop (leadingDigits (c :: rest)) with
      | nil =>
        rw [hq] at hp
        simp at hp
      | cons b q' =>
        rw [hq] at hp
        have hbd : b.isDigit = false := leadingDigits_drop_head _ _ _ hq
        have hbC : b ≠ ',' := by
          intro hEq
          rw [hEq] at hp
          simp at hp
        have hsplit : c :: rest =
            (c :: rest).take (leadingDigits (c :: rest)) ++ b :: q' := by
          conv_lhs =>
            rw [← List.take_append_drop (leadingDigits (c :: rest)) (c :: rest)]
          rw [hq]
        have hdig := leadingDigits_take (c :: rest)
        have hdne : (c :: rest).take (leadingDigits (c :: rest)) ≠ [] := by
          have h0 : leadingDigits (c :: rest) ≠ 0 := by
            simp [leadingDigits, hc]
          intro hEmpty
          rcases List.take_eq_nil_iff.mp hEmpty with h | h
          · exact h0 h
          · simp at h
        rw [hsplit, List.append_assoc, List.cons_append]
        exact parseGroupLen_blocked _ b (q' ++ T) ⟨hdne, hdig⟩ hbC hbd
    · have hcf : c.isDigit = false := by simpa using hc
      exact parseGroupLen_nondigit c (rest ++ T) hcf

theorem inert_parseRunLen (p : List Char) (hp : inertSuffix p = true)
    (hne : p ≠ []) (T : List Char) : parseRunLen (p ++ T) = none := by
  rw [parseRunLen]
  exact parseRunLenAux_none _ (inert_parseGroupLen p hp hne T) _

theorem finditerAux_skip (P : List Char) : ∀ (fuel i : Nat) (T : List Char),
    (∀ p ∈ P.tails, inertSuffix p = true) →
    finditerAux (P.length + fuel) (P ++ T) i =
      finditerAux fuel T (i + P.length) := by
  induction P with
  | nil =>
    intro fuel i T _
    simp
  | cons c P' ih =>
    intro fuel i T hP
    have hself : inertSuffix (c :: P') = true :=
      hP _ ((List.mem_tails _ _).mpr (List.suffix_refl _))
    have hrun : parseRunLen ((c :: P') ++ T) = none :=
      inert_parseRunLen _ hself (by simp) T
    have harith : (c :: P').length + fuel = (P'.length + fuel) + 1 := by
      simp
      omega
    rw [harith]
    show finditerAux ((P'.length + fuel) + 1) (c :: (P' ++ T)) i = _
    rw [show (c :: (P' ++ T)) = (c :: P') ++ T from rfl]
    simp only [finditerAux, hrun]
    show finditerAux (P'.length + fuel) (P' ++ T) (i + 1) =
      finditerAux fuel T (i + (c :: P').length)
    have ih2 := ih fuel (i + 1) T (fun p hm =>
      hP p ((List.mem_tails _ _).mpr
        (((List.mem_tails _ _).mp hm).trans (List.suffix_cons c P'))))
    rw [ih2]
    congr 1
    simp
    omega

theorem finditerAux_nil_inert : ∀ (fuel : Nat) (cs : List Char) (i : Nat),
    (∀ p ∈ cs.tails, inertSuffix p = true) → finditerAux fuel cs i = [] := by
  intro fuel
  induction fuel with
  | zero =>
    intro cs i _
    rfl
  | succ f ih =>
    intro cs i h
    cases cs with
    | nil => rfl
    | cons c rest =>
      have hself : inertSuffix (c :: rest) = true :=
        h _ ((List.mem_tails _ _).mpr (List.suffix_refl _))
      have hrun : parseRunLen (c :: rest) = none := by
        have h2 := inert_parseRunLen (c :: rest) hself (by simp) []
        rwa [List.append_nil] at h2
      simp only [finditerAux, hrun]
      exact ih rest (i + 1) (fun p hm =>
        h p ((List.mem_tails _ _).mpr
          (((List.mem_tails _ _).mp hm).trans (List.suffix_cons c rest))))

theorem tails_digits_inert (d : List Char) (b : Char) (S : List Char)
    (hd : ∀ c ∈ d, c.isDigit = true) (hb : b ≠ ',') (hbd : b.isDigit = false)
    (hS : ∀ p ∈ (b :: S).tails, inertSuffix p = true) :
    ∀ p ∈ (d ++ b :: S).tails, inertSuffix p = true := by
  induction d with
  | nil => simpa using hS
  | cons c d' ih =>
    intro p hp
    rw [show (c :: d') ++ b :: S = c :: (d' ++ b :: S) from rfl,
      List.tails_cons] at hp
    rcases List.mem_cons.mp hp with h | h
    · rw [h]
      have hc : c.isDigit = true := hd c (List.mem_cons_self _ _)
      have hld : leadingDigits ((c :: d') ++ b :: S) = (c :: d').length :=
        leadingDigits_stop (c :: d') b S hd hbd
      have hdrop : ((c :: d') ++ b :: S).drop ((c :: d').length) = b :: S :=
        List.drop_left _ _
      simp only [inertSuffix, hc, if_true]
      rw [show (c :: (d' ++ b :: S)) = (c :: d') ++ b :: S from rfl, hld, hdrop]
      split <;> simp_all
    · exact ih (fun x hx => hd x (List.mem_cons_of_mem _ hx)) p h

theorem groupChars_length_ge (ds : List (List Char)) :
    ds.length ≤ (groupChars ds).length := by
  induction ds with
  | nil => simp [groupChars]
  | cons d rest ih =>
    simp [groupChars]
    omega

/-- The greedy `(\d+, )+` match over a run of digit groups followed by a
final number and a blocking character: exactly the groups (with their
separators) are matched; the final number stays outside. -/
theorem parseRunLenAux_groups (d2 : List Char) (b : Char) (S : List Char)
    (h2 : AllDigits d2) (hb : b ≠ ',') (hbd : b.isDigit = false) :
    ∀ (ds : List (List Char)) (fuel : Nat), ds ≠ [] →
    (∀ d ∈ ds, AllDigits d) → ds.length < fuel →
    parseRunLenAux fuel (groupChars ds ++ d2 ++ b :: S) =
      some (groupChars ds).length := by
  intro ds
  induction ds with
  | nil =>
    intro fuel h
    exact absurd rfl h
  | cons d ds' ih =>
    intro fuel _ hall hfuel
    cases fuel with
    | zero => omega
    | succ f =>
      have hd : AllDigits d := hall d (List.mem_cons_self _ _)
      have hshape : groupChars (d :: ds') ++ d2 ++ b :: S =
          d ++ ',' :: ' ' :: (groupChars ds' ++ d2 ++ b :: S) := by
        simp [groupChars]
      rw [hshape]
      have hgrp := parseGroupLen_group d (groupChars ds' ++ d2 ++ b :: S) hd
      simp only [parseRunLenAux, hgrp]
      have hdrop : (d ++ ',' :: ' ' :: (groupChars ds' ++ d2 ++ b :: S)).drop
          (d.length + 2) = groupChars ds' ++ d2 ++ b :: S := by
        rw [List.drop_append 2]
        rfl
      rw [hdrop]
      cases hds : ds' with
      | nil =>
        have hnone : parseGroupLen (groupChars [] ++ d2 ++ b :: S) = none := by
          simpa [groupChars] using parseGroupLen_blocked d2 b S h2 hb hbd
        rw [hds] at *
        rw [parseRunLenAux_none _ (by simpa [groupChars] using hnone) f]
        simp [groupChars]
      | cons e es =>
        rw [← hds]
        have hne : ds' ≠ [] := by rw [hds]; simp
        have ih2 := ih f hne (fun x hx => hall x (List.mem_cons_of_mem _ hx))
          (by simp at hfuel ⊢; omega)
        rw [ih2]
        simp [groupChars]
        omega

theorem findIdx_comma (d : List Char) (rest : List Char)
    (hd : ∀ c ∈ d, c.isDigit = true) :
    (d ++ ',' :: rest).findIdx (fun c => c = ',') = d.length := by
  induction d with
  | nil => simp [List.findIdx_cons]
  | cons c d' ih =>
    have hc : c.isDigit = true := hd c (List.mem_cons_self _ _)
    have hne : ¬(c = ',') := by
      intro hEq
      rw [hEq] at hc
      exact absurd hc (by decide)
    have ih2 := ih (fun x hx => hd x (List.mem_cons_of_mem _ hx))
    simp [List.findIdx_cons, hne, ih2]

theorem joinComma_data (x : String) (xs : List String) (y : String) :
    (joinComma (x :: (xs ++ [y]))).data =
      groupChars (x.data :: xs.map String.data) ++ y.data := by
  induction xs generalizing x with
  | nil => simp [joinComma, groupChars, commaSp]
  | cons m ms ih =>
    show (x ++ commaSp ++ joinComma (m :: (ms ++ [y]))).data = _
    have ih2 := ih m
    simp only [List.map_cons, groupChars]
    show x.data ++ commaSp.data ++ (joinComma (m :: (ms ++ [y]))).data = _
    rw [ih2]
    simp [commaSp, groupChars]

theorem finditerAux_run_step (cs : List Char) (fuel i L : Nat)
    (hne : cs ≠ []) (hrun : parseRunLen cs = some L) :
    finditerAux (fuel + 1) cs i =
      (i, i + L) :: finditerAux fuel (cs.drop L) (i + L) := by
  obtain ⟨c, rest, hcs⟩ := List.exists_cons_of_ne_nil hne
  subst hcs
  simp [finditerAux, hrun]

/-- The shortening pass of `UInputsData.__str__` on a rendering that
contains one run of numbers: a run of at least three numbers is
compressed to its first number, `"... "` and its last number; a run of
two numbers is left unchanged (the loop skips matches where nothing lies
strictly between the advanced start and the match end). -/
theorem shortenRuns_single_run (d1 d2 : List Char) (mid : List (List Char))
    (h1 : AllDigits d1) (h2 : AllDigits d2)
    (hmid : ∀ d ∈ mid, AllDigits d) :
    shortenRuns (String.mk (runPre.data ++
        (groupChars (d1 :: mid) ++ (d2 ++ runSuf.data)))) =
      (if mid = [] then
        String.mk (runPre.data ++
          (groupChars (d1 :: mid) ++ (d2 ++ runSuf.data)))
      else
        String.mk (runPre.data ++ (d1 ++
          (',' :: ' ' :: '.' :: '.' :: '.' :: ' ' ::
            (d2 ++ runSuf.data))))) := by
  have hsuf : runSuf.data = ']' :: '}' :: '}' :: ')' :: [] := rfl
  have hS0tails : ∀ p ∈ (']' :: '}' :: '}' :: ')' :: ([] : List Char)).tails,
      inertSuffix p = true := by decide
  have hPt : ∀ p ∈ runPre.data.tails, inertSuffix p = true := by decide
  have hd2tails : ∀ p ∈ (d2 ++ runSuf.data).tails, inertSuffix p = true := by
    rw [hsuf]
    exact tails_digits_inert d2 ']' ('}' :: '}' :: ')' :: []) h2.2
      (by decide) (by decide) hS0tails
  have hall : ∀ d ∈ d1 :: mid, AllDigits d := by
    intro d hd
    rcases List.mem_cons.mp hd with h | h
    · exact h ▸ h1
    · exact hmid d h
  have hGne : groupChars (d1 :: mid) ++ (d2 ++ runSuf.data) ≠ [] := by
    simp [groupChars]
  have hrunT : parseRunLen (groupChars (d1 :: mid) ++ (d2 ++ runSuf.data)) =
      some (groupChars (d1 :: mid)).length := by
    rw [parseRunLen, hsuf, ← List.append_assoc]
    apply parseRunLenAux_groups d2 ']' ('}' :: '}' :: ')' :: []) h2
      (by decide) (by decide) (d1 :: mid) _ (by simp) hall
    have hb1 := groupChars_length_ge (d1 :: mid)
    simp only [List.length_append, List.length_cons] at hb1 ⊢
    omega
  have hfind : reFinditerRuns (String.mk (runPre.data ++
      (groupChars (d1 :: mid) ++ (d2 ++ runSuf.data)))) =
      [(runPre.data.length,
        runPre.data.length + (groupChars (d1 :: mid)).length)] := by
    show finditerAux ((runPre.data ++
        (groupChars (d1 :: mid) ++ (d2 ++ runSuf.data))).length + 1)
      (runPre.data ++ (groupChars (d1 :: mid) ++ (d2 ++ runSuf.data))) 0 = _
    rw [show (runPre.data ++
        (groupChars (d1 :: mid) ++ (d2 ++ runSuf.data))).length + 1
        = runPre.data.length +
          ((groupChars (d1 :: mid) ++ (d2 ++ runSuf.data)).length + 1) from by
      simp only [List.length_append]
      omega]
    rw [finditerAux_skip runPre.data _ 0 _ hPt]
    rw [finditerAux_run_step _ _ _ _ hGne hrunT]
    rw [List.drop_left]
    rw [finditerAux_nil_inert _ _ _ hd2tails]
    simp
  unfold shortenRuns
  rw [hfind]
  simp only [List.reverse_cons, List.reverse_nil, List.nil_append,
    List.foldl_cons, List.foldl_nil]
  have hdropP : ((String.mk (runPre.data ++
      (groupChars (d1 :: mid) ++ (d2 ++ runSuf.data)))).toList).drop
      runPre.data.length = groupChars (d1 :: mid) ++ (d2 ++ runSuf.data) :=
    List.drop_left _ _
  have hshapeG : groupChars (d1 :: mid) ++ (d2 ++ runSuf.data) =
      d1 ++ ',' :: (' ' :: (groupChars mid ++ (d2 ++ runSuf.data))) := by
    simp [groupChars]
  have hfi : (((String.mk (runPre.data ++
      (groupChars (d1 :: mid) ++ (d2 ++ runSuf.data)))).toList).drop
      runPre.data.length).findIdx (fun c => c = ',') = d1.length := by
    rw [hdropP, hshapeG]
    exact findIdx_comma d1 _ h1.2
  unfold applyShorten
  rw [hfi]
  have hGlen : (groupChars (d1 :: mid)).length =
      d1.length + 2 + (groupChars mid).length := by
    simp [groupChars]
    omega
  by_cases hm : mid = []
  · subst hm
    rw [if_pos (by simp [groupChars] at hGlen ⊢; omega)]
    simp
  · have hgm : (groupChars mid).length ≠ 0 := by
      obtain ⟨e, es, he⟩ := List.exists_cons_of_ne_nil hm
      subst he
      simp [groupChars]
    rw [if_neg (by omega)]
    rw [if_neg hm]
    have htake : ((String.mk (runPre.data ++
        (groupChars (d1 :: mid) ++ (d2 ++ runSuf.data)))).toList).take
        (runPre.data.length + d1.length + 2) =
        runPre.data ++ (d1 ++ [',', ' ']) := by
      show (runPre.data ++
          (groupChars (d1 :: mid) ++ (d2 ++ runSuf.data))).take
          (runPre.data.length + d1.length + 2) = _
      rw [show runPre.data.length + d1.length + 2 =
          runPre.data.length + (d1.length + 2) from by omega]
      rw [List.take_append]
      rw [hshapeG]
      rw [List.take_append]
      simp
    have hdropE : ((String.mk (runPre.data ++
        (groupChars (d1 :: mid) ++ (d2 ++ runSuf.data)))).toList).drop
        (runPre.data.length + (groupChars (d1 :: mid)).length) =
        d2 ++ runSuf.data := by
      show (runPre.data ++
          (groupChars (d1 :: mid) ++ (d2 ++ runSuf.data))).drop
          (runPre.data.length + (groupChars (d1 :: mid)).length) = _
      rw [List.drop_append]
      rw [List.drop_left]
    rw [htake, hdropE]
    show String.mk _ = String.mk _
    apply congrArg String.mk
    show runPre.data ++ (d1 ++ [',', ' ']) ++ ellipsisSp.toList ++
        (d2 ++ runSuf.data) = _
    rw [show ellipsisSp.toList = '.' :: '.' :: '.' :: ' ' :: [] from rfl]
    simp

theorem strData_append (a b : String) : (a ++ b).data = a.data ++ b.data := rfl

theorem commaSp_data : commaSp.data = [',', ' '] := rfl

theorem ellipsisSp_data : ellipsisSp.data = ['.', '.', '.', ' '] := rfl

/-- C10: the string rendering of the uinput-capability-map message
compresses every long (three or more numbers) run of comma-plus-space
separated numeric identifiers down to its first number, an ellipsis and
its last number; a two-number run is left as is; and the transform is
display-only — equality of `UInputsData` messages is field-structural and
dispatch keys only on the kind, neither consulting the rendering. -/
theorem claim_c10_uinputs_str_compression :
    (∀ ns : List Int,
      uinputsDataStr [(("keyboard" : String), [((1 : Int), ns)])] =
        shortenRuns (runPre ++ joinComma (ns.map toString) ++ runSuf)) ∧
    (∀ (d1 d2 : String) (mid : List String),
      AllDigits d1.data → AllDigits d2.data →
      (∀ d ∈ mid, AllDigits d.data) → mid ≠ [] →
      shortenRuns (runPre ++ joinComma (d1 :: (mid ++ [d2])) ++ runSuf) =
        runPre ++ d1 ++ commaSp ++ ellipsisSp ++ d2 ++ runSuf) ∧
    (∀ (d1 d2 : String),
      AllDigits d1.data → AllDigits d2.data →
      shortenRuns (runPre ++ joinComma (d1 :: ([] ++ [d2])) ++ runSuf) =
        runPre ++ joinComma (d1 :: ([] ++ [d2])) ++ runSuf) ∧
    (∀ u1 u2, msgEq (.uinputsData u1) (.uinputsData u2) = true ↔ u1 = u2) ∧
    (∀ u, (Message.uinputsData u).message_type = MessageType.uinputs) := by
  have hargGen : ∀ (d1 d2 : String) (mid : List String),
      runPre ++ joinComma (d1 :: (mid ++ [d2])) ++ runSuf =
        String.mk (runPre.data ++ (groupChars (d1.data :: mid.map String.data)
          ++ (d2.data ++ runSuf.data))) := by
    intro d1 d2 mid
    apply String.ext
    show (runPre.data ++ (joinComma (d1 :: (mid ++ [d2]))).data)
        ++ runSuf.data = _
    rw [joinComma_data]
    simp [List.append_assoc]
  refine ⟨?_, ?_, ?_, ?_, ?_⟩
  · intro ns
    refine congrArg shortenRuns (String.ext ?_)
    simp only [uinputsDataStr, pyReprUinputs, pyReprCaps, pyReprIntList,
      List.map_cons, List.map_nil, joinComma, runPre, runSuf,
      strData_append]
    rw [show toString (1 : Int) = "1" from by decide]
    simp [List.append_assoc]
  · intro d1 d2 mid h1 h2 hmid hne
    have hall2 : ∀ d ∈ mid.map String.data, AllDigits d := by
      intro d hd
      rcases List.mem_map.mp hd with ⟨x, hx, hxd⟩
      exact hxd ▸ hmid x hx
    rw [hargGen d1 d2 mid,
      shortenRuns_single_run d1.data d2.data (mid.map String.data) h1 h2 hall2,
      if_neg (by simpa using hne)]
    apply String.ext
    show runPre.data ++ (d1.data ++
        (',' :: ' ' :: '.' :: '.' :: '.' :: ' ' :: (d2.data ++ runSuf.data)))
      = ((((runPre ++ d1) ++ commaSp) ++ ellipsisSp) ++ d2 ++ runSuf).data
    simp only [strData_append, commaSp_data, ellipsisSp_data,
      List.append_assoc]
    rfl
  · intro d1 d2 h1 h2
    rw [hargGen d1 d2 []]
    simp only [List.map_nil]
    rw [shortenRuns_single_run d1.data d2.data [] h1 h2 (by simp),
      if_pos rfl]
  · intro u1 u2
    simp [msgEq]
  · intro u
    rfl

/-- C10 witness: a four-number run is compressed to first, ellipsis,
last; a two-number run is untouched; the full rendering of a concrete
capability map (including one with two devices, hence two runs) shows the
compressed text; and the payload equality is structural. -/
theorem claim_c10_uinputs_str_compression_witness :
    uinputsDataStr
        [(("keyboard" : String), [((1 : Int), [272, 273, 274, 275])])] =
      "UInputsData(uinputs=\x7b\x27keyboard\x27: \x7b1: [272, ... 275]\x7d\x7d)" ∧
    shortenRuns (runPre ++ joinComma (("272" : String) ::
        ((["273", "274"] : List String) ++ ["275"])) ++ runSuf) =
      runPre ++ "272" ++ commaSp ++ ellipsisSp ++ "275" ++ runSuf ∧
    shortenRuns (runPre ++ joinComma (("272" : String) ::
        (([] : List String) ++ ["273"])) ++ runSuf) =
      runPre ++ joinComma (("272" : String) ::
        (([] : List String) ++ ["273"])) ++ runSuf ∧
    uinputsDataStr [(("kb" : String), [((1 : Int), [1, 2, 3])]),
        (("mouse" : String), [((2 : Int), [4, 5, 6, 7])])] =
      "UInputsData(uinputs=\x7b\x27kb\x27: \x7b1: [1, ... 3]\x7d, \x27mouse\x27: \x7b2: [4, ... 7]\x7d\x7d)" ∧
    (msgEq (.uinputsData [(("kb" : String), [])])
        (.uinputsData [(("kb" : String), [])]) = true ↔
      ([(("kb" : String), ([] : Capabilities))] : List (String × Capabilities))
        = [(("kb" : String), [])]) := by
  refine ⟨by decide, ?_, ?_, by decide, ?_⟩
  · exact claim_c10_uinputs_str_compression.2.1 "272" "275" ["273", "274"]
      (by decide) (by decide) (by decide) (by decide)
  · exact claim_c10_uinputs_str_compression.2.2.1 "272" "273"
      (by decide) (by decide)
  · exact claim_c10_uinputs_str_compression.2.2.2.1
      [(("kb" : String), [])] [(("kb" : String), [])]
